import Mathlib

/-!
Verification of the `tel/typescript-vdom` repository (a TypeScript port of
virtual-dom) against its natural-language specification.

The development shallowly embeds the relevant parts of the source:

* `src/vtree.ts` : the tree value model (`VNode`, `VText`, `Widget`, `Thunk`,
  `VHook`), the diff engine (`diff`, `walk`, `diffChildren`, `clearState`,
  `thunks`, `hasPatches`, `diffProps`), the keyed reorder algorithm
  (`reorder`, `keyIndex`), and the sparse dom index (`recurse`,
  `indexInRange`).
* `src/vpatch.ts` : the patch kinds and the widget-apply decision.
* `src/utilities.ts` / `src/unnamed/part_001` : the iteration helpers.

JavaScript peculiarities that the claims hinge on are modelled explicitly:
`undefined` results of functions with no `return` statement, truthiness,
sparse-array reads that yield `undefined` (modelled as `Option`), and
`TypeError`s raised by member access on `undefined` (modelled with
`Except String`).
-/

namespace VDom

/-! ## JavaScript-flavoured basics -/

/-- Result of a JS string dictionary write `m[k] = v` (overwrite semantics:
the old binding for `k` is dropped, the new binding is appended). -/
def SDict.set (m : List (String × Nat)) (k : String) (v : Nat) :
    List (String × Nat) :=
  (m.filter (fun p => p.1 ≠ k)) ++ [(k, v)]

/-- Lookup `m[k]` in a JS string dictionary (`hasOwnProperty` is `isSome`). -/
def SDict.get? (m : List (String × Nat)) (k : String) : Option Nat :=
  (m.find? (fun p => p.1 == k)).map Prod.snd

/-- JS truthiness of a `key` field of type `string | null`: `null` and the
empty string are falsy, any other string is truthy. -/
def jsKeyTruthy : Option String → Bool
  | none => false
  | some s => s ≠ ""

/-- JS loose equality `a == b` on `string | null` keys: `null == null` holds,
`null == s` fails for a string `s`, strings compare by value. -/
def jsLooseEqKey : Option String → Option String → Bool
  | none, none => true
  | some s, some t => s == t
  | _, _ => false

/-- JS truthiness of a value of type `boolean | undefined`; the `undefined`
result of a function that never executes a `return` statement is falsy. -/
def jsTruthy : Option Bool → Bool
  | none => false
  | some b => b

/-! ## The tree value model (`src/vtree.ts`)

`VHook` instances are identified by numeric tokens standing for the identity
of their `hook`/`unhook` callbacks; `unhook : Option Nat` is `none` when the
constructor was called without an `unhook` argument. -/

/-- Embedding of the `VHook` class: `hook` and `unhook` callback identities
plus the `mustUnhook` field computed by the constructor. -/
structure VHookRec where
  hook : Nat
  unhook : Option Nat
  mustUnhook : Bool
  deriving Repr, DecidableEq

/-- The `VHook` constructor (src/vtree.ts lines 270-280):
`this.mustUnhook = !unhook;` — truthiness of the optional callback. -/
def VHookRec.make (hook : Nat) (unhook : Option Nat) : VHookRec :=
  { hook := hook, unhook := unhook, mustUnhook := !unhook.isSome }

/-- Property values (`PropValue = string | number | VHook | Dict<string>`);
`undef` models the JS value `undefined` stored in a slot. -/
inductive PropValue where
  | str (s : String) : PropValue
  | num (n : Int) : PropValue
  | hookV (h : VHookRec) : PropValue
  | dict (entries : List (String × PropValue)) : PropValue
  | undefV : PropValue

mutual

/-- Structural equality on property values, used to embed JS strict equality
`===` (an over-approximation: two strictly different JS objects can be
structurally equal; every theorem below that relies on `===` needs only the
sound direction at concrete inputs). -/
def PropValue.beq : PropValue → PropValue → Bool
  | .str a, .str b => a == b
  | .num a, .num b => a == b
  | .hookV a, .hookV b => a == b
  | .dict a, .dict b => PropValue.beqEntries a b
  | .undefV, .undefV => true
  | _, _ => false

/-- Pointwise `PropValue.beq` over object entries. -/
def PropValue.beqEntries :
    List (String × PropValue) → List (String × PropValue) → Bool
  | [], [] => true
  | (k1, v1) :: as, (k2, v2) :: bs =>
      k1 == k2 && PropValue.beq v1 v2 && PropValue.beqEntries as bs
  | _, _ => false

end

/-- A properties map (`Props`), an ordered JS object. -/
abbrev Props := List (String × PropValue)

/-- Tree values. `vnode` carries the fields the `VNode` constructor caches
(`count`, `descendants`, `hasWidgets`, `hasThunks`, `descendantHooks`,
`hooks`); well-formed values are built with `mkVNode` below which computes
them exactly as the constructor does. A `widget` is identified by the
identities of its `init`/`update`/`destroy` callbacks. A `thunk` is
defunctionalized: `result` is the value its `coreRender` function returns
(the embedded render functions are constant in `prior`), and `hasRendered`
and `cache` mirror the memo fields. -/
inductive VTree where
  | vnode (tagName : String) (properties : Props) (children : List VTree)
      (key : Option String) (count : Nat) (descendants : Nat)
      (hasWidgets : Bool) (hasThunks : Bool) (descendantHooks : Bool)
      (hooks : List (String × VHookRec)) : VTree
  | vtext (text : String) (key : Option String) : VTree
  | widget (init update destroy : Nat) (key : Option String) : VTree
  | thunk (result : VTree) (hasRendered : Bool) (cache : Option VTree)
      (key : Option String) : VTree

namespace VTree

/-- Immediate child count of a tree value; `t.count` is the `count` field for
a `VNode` and `undefined || 0 = 0` for the other variants (the source reads
`vChild.count || 0`). -/
def countOf : VTree → Nat
  | vnode _ _ _ _ count _ _ _ _ _ => count
  | _ => 0

/-- Read the `descendants` field of an element node (0 for other variants). -/
def descendantsOf : VTree → Nat
  | vnode _ _ _ _ _ descendants _ _ _ _ => descendants
  | _ => 0

/-- Read the `hasWidgets` field. -/
def hasWidgetsOf : VTree → Bool
  | vnode _ _ _ _ _ _ hasWidgets _ _ _ => hasWidgets
  | _ => false

/-- Read the `hasThunks` field. -/
def hasThunksOf : VTree → Bool
  | vnode _ _ _ _ _ _ _ hasThunks _ _ => hasThunks
  | _ => false

/-- Read the `descendantHooks` field. -/
def descendantHooksOf : VTree → Bool
  | vnode _ _ _ _ _ _ _ _ descendantHooks _ => descendantHooks
  | _ => false

/-- Read the `hooks` field of an element node. -/
def hooksOf : VTree → List (String × VHookRec)
  | vnode _ _ _ _ _ _ _ _ _ hooks => hooks
  | _ => []

/-- Read the `key` field (present on every `VTree` subclass). -/
def keyOf : VTree → Option String
  | vnode _ _ _ key _ _ _ _ _ _ => key
  | vtext _ key => key
  | widget _ _ _ key => key
  | thunk _ _ _ key => key

/-- Read the `children` field of an element node. -/
def childrenOf : VTree → List VTree
  | vnode _ _ children _ _ _ _ _ _ _ => children
  | _ => []

/-- Variant tests mirroring the `instanceof` type guards. -/
def isVNode : VTree → Bool
  | vnode .. => true
  | _ => false

/-- The `instanceof VText` guard. -/
def isVText : VTree → Bool
  | vtext .. => true
  | _ => false

/-- The `instanceof Widget` guard. -/
def isWidget : VTree → Bool
  | widget .. => true
  | _ => false

/-- The `instanceof Thunk` guard. -/
def isThunk : VTree → Bool
  | thunk .. => true
  | _ => false

end VTree

mutual

/-- Structural equality on tree values, embedding JS strict equality `===`
(see the comment on `PropValue.beq`). -/
def VTree.beq : VTree → VTree → Bool
  | .vnode t1 p1 c1 k1 n1 d1 w1 th1 dh1 h1,
    .vnode t2 p2 c2 k2 n2 d2 w2 th2 dh2 h2 =>
      t1 == t2 && PropValue.beqEntries p1 p2 && VTree.beqList c1 c2 &&
        k1 == k2 && n1 == n2 && d1 == d2 && w1 == w2 && th1 == th2 &&
        dh1 == dh2 && h1 == h2
  | .vtext s1 k1, .vtext s2 k2 => s1 == s2 && k1 == k2
  | .widget i1 u1 d1 k1, .widget i2 u2 d2 k2 =>
      i1 == i2 && u1 == u2 && d1 == d2 && k1 == k2
  | .thunk r1 hr1 c1 k1, .thunk r2 hr2 c2 k2 =>
      VTree.beq r1 r2 && hr1 == hr2 && VTree.beqOpt c1 c2 && k1 == k2
  | _, _ => false

/-- Pointwise `VTree.beq` over lists of children. -/
def VTree.beqList : List VTree → List VTree → Bool
  | [], [] => true
  | a :: as, b :: bs => VTree.beq a b && VTree.beqList as bs
  | _, _ => false

/-- The `VTree.beq` lift to optional trees (for the thunk cache field). -/
def VTree.beqOpt : Option VTree → Option VTree → Bool
  | none, none => true
  | some a, some b => VTree.beq a b
  | _, _ => false

end

open VTree

/-- State accumulated by the `VNode` constructor's child scan
(src/vtree.ts lines 43-77). -/
structure NodeScan where
  descendants : Nat
  hasWidgets : Bool
  hasThunks : Bool
  descendantHooks : Bool

/-- One step of the constructor's `iterArray` loop over the children:
a `VNode` child contributes `node.count` to `descendants` (the source adds
the child's immediate child count, not its `descendants` field) and OR-folds
the flags; `node.hooks !== undefined` is always true because the constructor
initializes `hooks` to `{}`, so `descendantHooks` becomes true whenever some
child is a `VNode`. -/
def nodeScanStep (acc : NodeScan) (child : VTree) : NodeScan :=
  match child with
  | .vnode _ _ _ _ count _ hasWidgets hasThunks descendantHooks _ =>
      { descendants := acc.descendants + count
        hasWidgets := acc.hasWidgets || hasWidgets
        hasThunks := acc.hasThunks || hasThunks
        descendantHooks := acc.descendantHooks || true || descendantHooks }
  | child =>
      { acc with
        hasWidgets := acc.hasWidgets || child.isWidget
        hasThunks := acc.hasThunks || child.isThunk }

/-- The `VNode` constructor (src/vtree.ts lines 30-78). It collects the
hook-valued properties whose `mustUnhook` field is set, scans the children,
and finally adds `this.count` to `this.descendants`. -/
def mkVNode (tagName : String) (properties : Props) (children : List VTree)
    (key : Option String := none) : VTree :=
  let count := children.length
  let hooks := properties.filterMap (fun p =>
    match p.2 with
    | .hookV h => if h.mustUnhook then some (p.1, h) else none
    | _ => none)
  let scan := children.foldl nodeScanStep
    { descendants := 0, hasWidgets := false, hasThunks := false
      descendantHooks := false }
  .vnode tagName properties children key count (scan.descendants + count)
    scan.hasWidgets scan.hasThunks scan.descendantHooks hooks

mutual

/-- Number of proper descendants of a tree value. Modelled from the spec:
"every element node's `descendantCount` equals the sum of its children's own
`(1 + descendantCount)`" (spec §3). -/
def specDescendantCount : VTree → Nat
  | .vnode _ _ children _ _ _ _ _ _ _ => specDescendantSum children
  | _ => 0

/-- Sum over a child list of `(1 + descendant count of the child)`. -/
def specDescendantSum : List VTree → Nat
  | [] => 0
  | c :: cs => (1 + specDescendantCount c) + specDescendantSum cs

end

/-! ### Claim C1: the cached `descendants` field

The constructor adds `node.count` (the child's immediate child count) for
each element child instead of the child's own `descendants` field, so for a
chain of four nested element nodes the cached value undercounts. -/

/-- Chain of four nested single-child element nodes. -/
def chain4 : VTree :=
  mkVNode "d" [] [mkVNode "c" [] [mkVNode "b" [] [mkVNode "a" [] []]]]

/-- Claim C1 (code_bug): the `VNode` constructor caches `descendants = 2` for
a chain of four nested element nodes, while the spec's invariant (the sum
over children of one plus their own descendant count) gives 3: the cached
field undercounts for trees of depth three or more, contradicting the field's
own doc comment ("Number of all descendents"). -/
theorem c1_descendants_code_bug :
    (chain4.descendantsOf = 2 ∧ specDescendantCount chain4 = 3) ∧
      chain4.descendantsOf ≠ specDescendantCount chain4 := by
  refine ⟨⟨?_, ?_⟩, ?_⟩ <;> decide

/-! ## Thunks (`src/vtree.ts` lines 157-217)

The `Thunk.render` method is embedded as a state machine over the memo
fields; the underlying `coreRender` function is a parameter, and the step
reports whether it invoked the function. -/

/-- The memo state of a thunk instance: the constructor initializes
`hasRendered = false`, `cache = null`. -/
structure ThunkState (R : Type) where
  hasRendered : Bool
  cache : Option R
  deriving Repr, DecidableEq

/-- Initial thunk state, as set up by the `Thunk` constructor. -/
def ThunkState.init (R : Type) : ThunkState R := ⟨false, none⟩

/-- One call of `Thunk.render(prior)` (src/vtree.ts lines 176-184): if
`hasRendered`, return the cache; otherwise invoke `coreRender`, memoize, and
flip the flag. The third component records whether `coreRender` was invoked
during this call. -/
def thunkRender {P R : Type} (coreRender : P → R) (s : ThunkState R)
    (prior : P) : Option R × ThunkState R × Bool :=
  if s.hasRendered then
    (s.cache, s, false)
  else
    let r := coreRender prior
    (some r, ⟨true, some r⟩, true)

/-- Run a sequence of `render` calls against one thunk instance, returning
the outputs, the final state, and the total number of `coreRender`
invocations. -/
def runRenders {P R : Type} (coreRender : P → R) (s : ThunkState R) :
    List P → List (Option R) × ThunkState R × Nat
  | [] => ([], s, 0)
  | p :: ps =>
      let (out, s', invoked) := thunkRender coreRender s p
      let (outs, sFin, n) := runRenders coreRender s' ps
      (out :: outs, sFin, (if invoked then 1 else 0) + n)

/-- After the first call the state is the memoized one and later calls just
return the cache without invoking `coreRender`. -/
theorem runRenders_rendered {P R : Type} (coreRender : P → R) (r : R)
    (ps : List P) :
    runRenders coreRender ⟨true, some r⟩ ps =
      (ps.map (fun _ => some r), ⟨true, some r⟩, 0) := by
  induction ps with
  | nil => rfl
  | cons p ps ih => simp [runRenders, thunkRender, ih]

/-- Claim C6 (confirmed): across any number of `render(prior)` calls on one
thunk instance the underlying function is invoked at most once — exactly once
when there is at least one call — the first call memoizes
`coreRender firstPrior`, and every later call returns that memoized cache
regardless of the prior argument passed. -/
theorem c6_thunk_memoization {P R : Type} (coreRender : P → R)
    (priors : List P) :
    (runRenders coreRender (ThunkState.init R) priors).2.2 ≤ 1 ∧
      (runRenders coreRender (ThunkState.init R) priors).1 =
        match priors with
        | [] => []
        | p :: rest =>
            some (coreRender p) :: rest.map (fun _ => some (coreRender p)) := by
  cases priors with
  | nil => exact ⟨by simp [runRenders], rfl⟩
  | cons p rest =>
      have h := runRenders_rendered coreRender (coreRender p) rest
      constructor
      · simp [runRenders, thunkRender, ThunkState.init, h]
      · simp [runRenders, thunkRender, ThunkState.init, h]

/-! ## Widgets (`src/vtree.ts` lines 111-140, `src/vpatch.ts` lines 491-520) -/

/-- Embedding of the `Widget` class: callback identities plus the key. -/
structure WidgetRec where
  init : Nat
  update : Nat
  destroy : Nat
  key : Option String
  deriving Repr, DecidableEq

/-- The `Widget.shouldUpdate` module function (src/vtree.ts lines 136-140).
Its body evaluates `(a.key == b.key) || (a.init == b.init)` but contains no
`return` statement, so the call expression evaluates to `undefined`
(modelled as `none`). -/
def shouldUpdate (a b : WidgetRec) : Option Bool :=
  let _ := jsLooseEqKey a.key b.key || a.init == b.init
  none

/-- The boolean the source INTENDED to return, for comparison. -/
def shouldUpdateExpr (a b : WidgetRec) : Bool :=
  jsLooseEqKey a.key b.key || a.init == b.init

/-- Outcome of `VPatch.WIDGET.apply` for a prior widget. -/
inductive WidgetOutcome where
  | update : WidgetOutcome
  | materializeAndDestroy : WidgetOutcome
  deriving Repr, DecidableEq

/-- Decision logic of `VPatch.WIDGET.apply` (src/vpatch.ts lines 493-519):
`var updating = Widget.shouldUpdate(priorWidget, this.widget)`; if `updating`
is truthy the widget's `update` runs, otherwise the new widget is rendered
(`materialize`) and, because `!updating`, the prior widget is destroyed. -/
def widgetApplyOutcome (prior next : WidgetRec) : WidgetOutcome :=
  if jsTruthy (shouldUpdate prior next) then .update
  else .materializeAndDestroy

/-- Two widgets sharing the key "a" (distinct callback identities). -/
def widgetKA1 : WidgetRec := ⟨1, 2, 3, some "a"⟩

/-- A second widget with the same key. -/
def widgetKA2 : WidgetRec := ⟨4, 5, 6, some "a"⟩

/-- Claim C3 (code_bug): `Widget.shouldUpdate` contains no `return`
statement, so it evaluates to `undefined` (falsy) even for two widgets with
equal keys — although the expression it computes and discards is true — and
at apply time two equal-keyed widgets therefore take the
materialize-plus-destroy path, never `update`, contradicting the claim's
gating. -/
theorem c3_should_update_code_bug :
    shouldUpdate widgetKA1 widgetKA2 = none ∧
      shouldUpdateExpr widgetKA1 widgetKA2 = true ∧
      widgetApplyOutcome widgetKA1 widgetKA2 = .materializeAndDestroy := by
  refine ⟨rfl, by decide, rfl⟩

/-! ## The sparse node index (`src/vtree.ts` lines 739-806)

The binary search `indexInRange` and the pruned co-walk `recurse`. -/

/-- Loop body of `indexInRange` (src/vtree.ts lines 779-806). The JS loop
runs `while (minIndex <= maxIndex)`; `maxIndex = currentIndex - 1` can reach
`-1`, upon which the loop exits returning `false` — embedded here with `Nat`
indices by returning `false` directly when `mid = 0`. The fuel only bounds
the iteration count; `indices.length` iterations always suffice because the
window shrinks strictly. -/
def indexInRangeLoop (indices : List Nat) (left right : Nat) :
    Nat → Nat → Nat → Bool
  | _, _, 0 => false
  | minIdx, maxIdx, fuel + 1 =>
    if minIdx ≤ maxIdx then
      let mid := (maxIdx + minIdx) / 2
      let item := indices.getD mid 0
      if minIdx == maxIdx then decide (left ≤ item) && decide (item ≤ right)
      else if item < left then
        indexInRangeLoop indices left right (mid + 1) maxIdx fuel
      else if right < item then
        if mid == 0 then false
        else indexInRangeLoop indices left right minIdx (mid - 1) fuel
      else true
    else false

/-- The `indexInRange` function: does some element of the sorted `indices`
lie in `[left, right]`? `minIndex` starts at 0 and `maxIndex` at
`indices.length - 1` (so an empty array never enters the loop). -/
def indexInRange (indices : List Nat) (left right : Nat) : Bool :=
  if indices.isEmpty then false
  else indexInRangeLoop indices left right 0 (indices.length - 1)
    indices.length

/-- Sorted lists are monotone at positions read through `getD`. -/
theorem sorted_getD_mono {xs : List Nat} (hs : List.Sorted (· ≤ ·) xs)
    {i j : Nat} (hij : i ≤ j) (hj : j < xs.length) :
    xs.getD i 0 ≤ xs.getD j 0 := by
  have hi : i < xs.length := lt_of_le_of_lt hij hj
  rw [xs.getD_eq_getElem 0 hi, xs.getD_eq_getElem 0 hj]
  rcases Nat.eq_or_lt_of_le hij with rfl | hlt
  · exact le_refl _
  · exact List.pairwise_iff_getElem.mp hs i j hi hj hlt

/-- Correctness of the binary-search window: assuming `indices` is sorted,
the loop finds an element of `[left, right]` inside the window
`[minIdx, maxIdx]` if and only if one exists, provided the fuel covers the
window span. -/
theorem indexInRangeLoop_correct (indices : List Nat) (left right : Nat)
    (hs : List.Sorted (· ≤ ·) indices) :
    ∀ fuel minIdx maxIdx, maxIdx < indices.length →
      maxIdx + 1 - minIdx ≤ fuel →
      (indexInRangeLoop indices left right minIdx maxIdx fuel = true ↔
        ∃ i, minIdx ≤ i ∧ i ≤ maxIdx ∧ left ≤ indices.getD i 0 ∧
          indices.getD i 0 ≤ right) := by
  intro fuel
  induction fuel with
  | zero =>
      intro minIdx maxIdx _ hfuel
      simp only [indexInRangeLoop, Bool.false_eq_true, false_iff, not_exists]
      intro i
      rintro ⟨h1, h2, -, -⟩
      omega
  | succ fuel ih =>
      intro minIdx maxIdx hmax hfuel
      rw [indexInRangeLoop]
      by_cases hle : minIdx ≤ maxIdx
      · rw [if_pos hle]
        have hmid1 : (maxIdx + minIdx) / 2 ≤ maxIdx := by omega
        have hmid2 : minIdx ≤ (maxIdx + minIdx) / 2 := by omega
        by_cases heq : minIdx = maxIdx
        · subst heq
          have hmid : (minIdx + minIdx) / 2 = minIdx := by omega
          simp only [hmid, beq_self_eq_true, if_pos, Bool.and_eq_true,
            decide_eq_true_eq]
          constructor
          · rintro ⟨h1, h2⟩; exact ⟨minIdx, le_refl _, le_refl _, h1, h2⟩
          · rintro ⟨i, h1, h2, h3, h4⟩
            have : i = minIdx := le_antisymm h2 h1
            subst this; exact ⟨h3, h4⟩
        · have hlt : minIdx < maxIdx := lt_of_le_of_ne hle heq
          have hmidlt : (maxIdx + minIdx) / 2 < maxIdx := by omega
          have hne : ¬((minIdx == maxIdx) = true) := by simp [heq]
          rw [if_neg hne]
          set mid := (maxIdx + minIdx) / 2 with hmiddef
          by_cases hl : indices.getD mid 0 < left
          · rw [if_pos hl, ih (mid + 1) maxIdx hmax (by omega)]
            constructor
            · rintro ⟨i, h1, h2, h3, h4⟩; exact ⟨i, by omega, h2, h3, h4⟩
            · rintro ⟨i, h1, h2, h3, h4⟩
              refine ⟨i, ?_, h2, h3, h4⟩
              by_contra hcon
              have hi : i ≤ mid := by omega
              have := sorted_getD_mono hs hi (by omega)
              omega
          · rw [if_neg hl]
            by_cases hr : right < indices.getD mid 0
            · rw [if_pos hr]
              by_cases hz : mid = 0
              · have hbeq : (mid == 0) = true := beq_iff_eq.mpr hz
                rw [if_pos hbeq]
                simp only [Bool.false_eq_true, false_iff, not_exists]
                intro i
                rintro ⟨h1, h2, h3, h4⟩
                have hi : mid ≤ i := by omega
                have := sorted_getD_mono hs hi (by omega)
                omega
              · have hbeq : ¬((mid == 0) = true) := by simp [hz]
                rw [if_neg hbeq]
                rw [ih minIdx (mid - 1) (by omega) (by omega)]
                constructor
                · rintro ⟨i, h1, h2, h3, h4⟩
                  exact ⟨i, h1, by omega, h3, h4⟩
                · rintro ⟨i, h1, h2, h3, h4⟩
                  refine ⟨i, h1, ?_, h3, h4⟩
                  by_contra hcon
                  have hi : mid ≤ i := by omega
                  have := sorted_getD_mono hs hi (by omega)
                  omega
            · rw [if_neg hr]
              simp only [true_iff]
              exact ⟨mid, hmid2, hmid1, by omega, by omega⟩
      · rw [if_neg hle]
        simp only [Bool.false_eq_true, false_iff, not_exists]
        intro i
        rintro ⟨h1, h2, -, -⟩
        omega

/-- Claim C7 support: on a sorted list, `indexInRange` decides exactly
whether some element lies in `[left, right]`. -/
theorem indexInRange_correct (indices : List Nat) (left right : Nat)
    (hs : List.Sorted (· ≤ ·) indices) :
    indexInRange indices left right = true ↔
      ∃ x ∈ indices, left ≤ x ∧ x ≤ right := by
  unfold indexInRange
  by_cases hemp : indices.isEmpty
  · rw [if_pos hemp]
    simp only [Bool.false_eq_true, false_iff, not_exists]
    rcases List.isEmpty_iff.mp hemp with rfl
    simp
  · rw [if_neg hemp]
    have hlen : 0 < indices.length := by
      cases indices with
      | nil => simp at hemp
      | cons a l => simp
    rw [indexInRangeLoop_correct indices left right hs indices.length 0
      (indices.length - 1) (by omega) (by omega)]
    constructor
    · rintro ⟨i, -, h2, h3, h4⟩
      have hi : i < indices.length := by omega
      refine ⟨indices.getD i 0, ?_, h3, h4⟩
      rw [indices.getD_eq_getElem 0 hi]
      exact indices.getElem_mem hi
    · rintro ⟨x, hmem, h3, h4⟩
      rcases List.mem_iff_getElem.mp hmem with ⟨i, hi, rfl⟩
      refine ⟨i, Nat.zero_le _, by omega, ?_, ?_⟩ <;>
        rw [indices.getD_eq_getElem 0 hi] <;> assumption

/-- A live (DOM) tree: only the child structure matters to `recurse`. -/
inductive DomNode where
  | mk (children : List DomNode) : DomNode

/-- Child list of a live node. -/
def DomNode.children : DomNode → List DomNode
  | .mk cs => cs

/-- JS object write `nodes[rootIndex] = rootNode`. -/
def NodeMap.set (m : List (Nat × DomNode)) (k : Nat) (v : DomNode) :
    List (Nat × DomNode) :=
  m.filter (fun p => p.1 ≠ k) ++ [(k, v)]

mutual

/-- The `recurse` co-walk of the dom index (src/vtree.ts lines 739-774),
instrumented: besides the node mapping it returns, for every guarded
recursive call into a child subtree, the pair (child start index, child
width `vChild.count || 0`). A `none` root node is the falsy `rootNode`
guard; a non-element `tree` has `vChildren` undefined, skipping the child
loop. -/
def recurse (rootNode : Option DomNode) (tree : VTree) (indices : List Nat)
    (nodes : List (Nat × DomNode)) (rootIndex : Nat) :
    List (Nat × DomNode) × List (Nat × Nat) :=
  match rootNode with
  | none => (nodes, [])
  | some root =>
      let nodes1 := if indexInRange indices rootIndex rootIndex
        then NodeMap.set nodes rootIndex root else nodes
      match tree with
      | .vnode _ _ children _ _ _ _ _ _ _ =>
          recurseChildren root.children children indices nodes1 rootIndex
      | _ => (nodes1, [])

/-- Loop over the children of a visited node: `rootIndex` is the running
index before the `rootIndex += 1` of the next iteration; each child spans
`[rootIndex + 1, rootIndex + 1 + count]` and is recursed into exactly when
`indexInRange` reports a requested position inside that span. -/
def recurseChildren (childNodes : List DomNode) (vChildren : List VTree)
    (indices : List Nat) (nodes : List (Nat × DomNode)) (rootIndex : Nat) :
    List (Nat × DomNode) × List (Nat × Nat) :=
  match vChildren with
  | [] => (nodes, [])
  | vChild :: rest =>
      let childStart := rootIndex + 1
      let width := vChild.countOf
      let first :=
        if indexInRange indices childStart (childStart + width) then
          let r := recurse childNodes.head? vChild indices nodes childStart
          (r.1, (childStart, width) :: r.2)
        else (nodes, ([] : List (Nat × Nat)))
      let r2 := recurseChildren childNodes.tail rest indices first.1
        (childStart + width)
      (r2.1, first.2 ++ r2.2)

end

mutual

/-- Every subtree visit recorded by `recurse` has a requested position
inside the visited range. -/
theorem recurse_visits_sound (indices : List Nat)
    (hs : List.Sorted (· ≤ ·) indices) (tree : VTree) :
    ∀ (cn : Option DomNode) (nodes : List (Nat × DomNode)) (idx : Nat)
      (sw : Nat × Nat),
      sw ∈ (recurse cn tree indices nodes idx).2 →
      ∃ p ∈ indices, sw.1 ≤ p ∧ p ≤ sw.1 + sw.2 := by
  intro cn nodes idx sw hmem
  match cn with
  | none => simp [recurse] at hmem
  | some root =>
      match tree with
      | .vnode tg pr children k n d w th dh hk =>
          exact recurseChildren_visits_sound indices hs children root.children
            _ idx sw (by simpa [recurse] using hmem)
      | .vtext s k => simp [recurse] at hmem
      | .widget i u de k => simp [recurse] at hmem
      | .thunk r hr c k => simp [recurse] at hmem

/-- Every subtree visit recorded by the child loop has a requested position
inside the visited range. -/
theorem recurseChildren_visits_sound (indices : List Nat)
    (hs : List.Sorted (· ≤ ·) indices) (vChildren : List VTree) :
    ∀ (childNodes : List DomNode) (nodes : List (Nat × DomNode)) (idx : Nat)
      (sw : Nat × Nat),
      sw ∈ (recurseChildren childNodes vChildren indices nodes idx).2 →
      ∃ p ∈ indices, sw.1 ≤ p ∧ p ≤ sw.1 + sw.2 := by
  intro childNodes nodes idx sw hmem
  match vChildren with
  | [] => simp [recurseChildren] at hmem
  | vChild :: rest =>
      rw [recurseChildren] at hmem
      simp only [List.mem_append] at hmem
      by_cases hg : indexInRange indices (idx + 1) (idx + 1 + vChild.countOf)
        = true
      · rw [if_pos hg] at hmem
        rcases hmem with hmem | hmem
        · rcases List.mem_cons.mp hmem with rfl | hmem
          · rcases (indexInRange_correct indices _ _ hs).mp hg with
              ⟨p, hp, h1, h2⟩
            exact ⟨p, hp, h1, h2⟩
          · exact recurse_visits_sound indices hs vChild _ _ _ sw hmem
        · exact recurseChildren_visits_sound indices hs rest _ _ _ sw hmem
      · rw [if_neg hg] at hmem
        rcases hmem with hmem | hmem
        · simp at hmem
        · exact recurseChildren_visits_sound indices hs rest _ _ _ sw hmem

end

/-- Claim C7 (confirmed): the sparse node index prunes correctly — on a
sorted position list, `indexInRange indices left right` returns true iff
some requested position `x` satisfies `left ≤ x ≤ right`, and consequently
every live child subtree that `recurse` visits (each guarded recursive call,
at any depth, spanning `[start, start + width]`) contains some requested
position; a subtree whose full index range excludes every requested
position is never visited. -/
theorem c7_index_pruning (indices : List Nat)
    (hs : List.Sorted (· ≤ ·) indices) :
    (∀ left right, indexInRange indices left right = true ↔
      ∃ x ∈ indices, left ≤ x ∧ x ≤ right) ∧
    (∀ (root : DomNode) (tree : VTree) (sw : Nat × Nat),
      sw ∈ (recurse (some root) tree indices [] 0).2 →
      ∃ p ∈ indices, sw.1 ≤ p ∧ p ≤ sw.1 + sw.2) :=
  ⟨fun left right => indexInRange_correct indices left right hs,
   fun root tree sw hmem =>
     recurse_visits_sound indices hs tree (some root) [] 0 sw hmem⟩

/-- Witness for C7 at the concrete sorted position list `[2, 5]`: the
binary search reports a hit for the range `[4, 6]`, and the reported
existential is realized by the element `5`. -/
theorem c7_index_pruning_witness :
    indexInRange [2, 5] 4 6 = true ∧ ∃ x ∈ [2, 5], 4 ≤ x ∧ x ≤ 6 :=
  ⟨rfl, ((c7_index_pruning [2, 5] (by decide)).1 4 6).mp rfl⟩

/-! ## The keyed reorder algorithm (`src/vtree.ts` lines 482-659)

The source is generic over `A extends Keyed`; the embedding takes the key
projection as a parameter. A JS `null` entry of the aligned children array
is `none : Option A`; an out-of-bounds read (`undefined`) is the `none`
result of `List.get?`. -/

/-- A recorded remove move `{from, key}` (the `key` may be `null`). -/
structure MoveRemove where
  fromIdx : Nat
  key : Option String
  deriving Repr, DecidableEq

/-- A recorded insert move `{key, to}` (`to` is a Lean keyword, hence
`toIdx`). -/
structure MoveInsert where
  key : Option String
  toIdx : Nat
  deriving Repr, DecidableEq

/-- A `Moves` record. -/
structure Moves where
  removes : List MoveRemove
  inserts : List MoveInsert
  deriving Repr, DecidableEq

/-- Result of `keyIndex`: the key hash and the unkeyed ("free") indices. -/
structure KeyIndexRes where
  keys : List (String × Nat)
  free : List Nat
  deriving Repr, DecidableEq

/-- Read a truthy key's string (callers guard with `jsKeyTruthy`). -/
def jsKeyStr : Option String → String
  | some s => s
  | none => ""

/-- The `keyIndex` function (src/vtree.ts lines 649-659): hash from key to
index for keyed items (later occurrences overwrite), and the index list of
unkeyed items. -/
def keyIndex {A : Type} (key : A → Option String) (as : List A) :
    KeyIndexRes :=
  (as.foldl
    (fun (acc : KeyIndexRes × Nat) a =>
      let (r, i) := acc
      if jsKeyTruthy (key a) then
        ({ r with keys := SDict.set r.keys (jsKeyStr (key a)) i }, i + 1)
      else
        ({ r with free := r.free ++ [i] }, i + 1))
    (⟨[], []⟩, 0)).1

/-- State of the first reorder pass building the aligned children array. -/
structure ReorderScan (A : Type) where
  newChildren : List (Option A)
  freeIndex : Nat
  deletedItems : Nat

/-- First pass of `reorder` (src/vtree.ts lines 504-532): walk `aChildren`
left to right, aligning each slot with the matching keyed item of
`bChildren`, the next free item of `bChildren`, or a `null` deletion
placeholder. -/
def reorderScanA {A : Type} (key : A → Option String) (bChildren : List A)
    (bKeys : List (String × Nat)) (bFree : List Nat)
    (aChildren : List A) : ReorderScan A :=
  aChildren.foldl
    (fun (st : ReorderScan A) aItem =>
      if jsKeyTruthy (key aItem) then
        match SDict.get? bKeys (jsKeyStr (key aItem)) with
        | some itemIndex =>
            { st with newChildren := st.newChildren ++ [bChildren.get? itemIndex] }
        | none =>
            { st with newChildren := st.newChildren ++ [none]
                      deletedItems := st.deletedItems + 1 }
      else
        if st.freeIndex < bFree.length then
          { st with
            newChildren :=
              st.newChildren ++ [bChildren.get? (bFree.getD st.freeIndex 0)]
            freeIndex := st.freeIndex + 1 }
        else
          { st with newChildren := st.newChildren ++ [none]
                    deletedItems := st.deletedItems + 1 })
    ⟨[], 0, 0⟩

/-- Second pass of `reorder` (src/vtree.ts lines 534-554): append new keyed
items and the unkeyed items of `bChildren` from `lastFreeIndex` on. -/
def reorderAppendB {A : Type} (key : A → Option String)
    (aKeys : List (String × Nat)) (lastFreeIndex : Nat)
    (bChildren : List A) (acc : List (Option A)) : List (Option A) :=
  (bChildren.foldl
    (fun (st : List (Option A) × Nat) newItem =>
      let (acc, j) := st
      if jsKeyTruthy (key newItem) then
        if (SDict.get? aKeys (jsKeyStr (key newItem))).isNone then
          (acc ++ [some newItem], j + 1)
        else (acc, j + 1)
      else if lastFreeIndex ≤ j then (acc ++ [some newItem], j + 1)
      else (acc, j + 1))
    (acc, 0)).1

/-- State of the move-simulation pass. -/
structure SimState (A : Type) where
  simulate : List (Option A)
  simulateIndex : Nat
  removes : List MoveRemove
  inserts : List MoveInsert

/-- The `remove` helper (src/vtree.ts lines 633-636): splice out
`arr[index]` and record `{from: index, key}`. -/
def spliceRemove {A : Type} (st : SimState A) (key : Option String) :
    SimState A :=
  { st with simulate := st.simulate.eraseIdx st.simulateIndex
            removes := st.removes ++ [⟨st.simulateIndex, key⟩] }

/-- The inner `while (simulateItem === null && simulate.length)` loop of the
simulation (src/vtree.ts lines 567-570): pop `null` placeholders at the
cursor, recording removes with a `null` key. The fuel is bounded by the
length of `simulate`, which shrinks at every iteration. -/
def skipNulls {A : Type} (st : SimState A) : Nat → SimState A
  | 0 => st
  | fuel + 1 =>
      match st.simulate.get? st.simulateIndex with
      | some none =>
          if st.simulate.length ≠ 0 then skipNulls (spliceRemove st none) fuel
          else st
      | _ => st

/-- One iteration body plus the driving loop of the simulation pass
(src/vtree.ts lines 562-607), transcribed branch by branch. `none` from
`simulate.get? simulateIndex` is the JS `undefined` read past the end of
`simulate` (a `null` placeholder cannot appear at the cursor after
`skipNulls`). The branch in which `wantedItem` is unkeyed and the cursor
is exhausted performs no state change in the source (an infinite loop); the
fuel cut therefore returns `none`, and the correctness theorems prove the
fuel is never exhausted for key-unique inputs. -/
def simLoop {A : Type} (key : A → Option String) (bChildren : List A)
    (bKeys : List (String × Nat)) : SimState A → Nat → Nat →
    Option (SimState A)
  | _, _, 0 => none
  | st, k, fuel + 1 =>
    if k < bChildren.length then
      match bChildren.get? k with
      | none => none
      | some wantedItem =>
        let st := skipNulls st (st.simulate.length + 1)
        let simulateItem : Option A :=
          match st.simulate.get? st.simulateIndex with
          | some v => v
          | none => none
        let wkey := key wantedItem
        if (match simulateItem with
            | none => true
            | some si => key si ≠ wkey) then
          if jsKeyTruthy wkey then
            match simulateItem with
            | some si =>
                if jsKeyTruthy (key si) then
                  -- a keyed item sits at the cursor
                  if SDict.get? bKeys (jsKeyStr (key si)) ≠ some (k + 1) then
                    let st := spliceRemove st (key si)
                    let simulateItem2 : Option A :=
                      match st.simulate.get? st.simulateIndex with
                      | some v => v
                      | none => none
                    match simulateItem2 with
                    | some si2 =>
                        if key si2 ≠ wkey then
                          simLoop key bChildren bKeys
                            { st with inserts := st.inserts ++ [⟨wkey, k⟩] }
                            (k + 1) fuel
                        else
                          simLoop key bChildren bKeys
                            { st with simulateIndex := st.simulateIndex + 1 }
                            (k + 1) fuel
                    | none =>
                        simLoop key bChildren bKeys
                          { st with inserts := st.inserts ++ [⟨wkey, k⟩] }
                          (k + 1) fuel
                  else
                    simLoop key bChildren bKeys
                      { st with inserts := st.inserts ++ [⟨wkey, k⟩] }
                      (k + 1) fuel
                else
                  simLoop key bChildren bKeys
                    { st with inserts := st.inserts ++ [⟨wkey, k⟩] }
                    (k + 1) fuel
            | none =>
                simLoop key bChildren bKeys
                  { st with inserts := st.inserts ++ [⟨wkey, k⟩] }
                  (k + 1) fuel
          else
            match simulateItem with
            | some si =>
                if jsKeyTruthy (key si) then
                  simLoop key bChildren bKeys (spliceRemove st (key si)) k fuel
                else
                  -- no state change in the source: the loop spins forever
                  simLoop key bChildren bKeys st k fuel
            | none =>
                -- no state change in the source: the loop spins forever
                simLoop key bChildren bKeys st k fuel
        else
          simLoop key bChildren bKeys
            { st with simulateIndex := st.simulateIndex + 1 } (k + 1) fuel
    else some st

/-- The trailing cleanup loop (src/vtree.ts lines 610-613): remove every
element still at or after the cursor. -/
def trailingRemoves {A : Type} (key : A → Option String) :
    SimState A → Nat → SimState A
  | st, 0 => st
  | st, fuel + 1 =>
      if st.simulateIndex < st.simulate.length then
        let v : Option A :=
          match st.simulate.get? st.simulateIndex with
          | some v => v
          | none => none
        trailingRemoves key
          (spliceRemove st (match v with
            | none => none
            | some si => key si)) fuel
      else st

/-- Result of `reorder`: the aligned children (with `null` placeholders) and
the nullable moves record. -/
structure ReorderResult (A : Type) where
  children : List (Option A)
  moves : Option Moves
  deriving Repr, DecidableEq

/-- The `reorder` function (src/vtree.ts lines 482-631). Returns `none` only
on the fuel cut of the simulation loop (reachable just for inputs on which
the source loops forever). In the keyless early exit the b-array is returned
directly (all entries `some`). -/
def reorder {A : Type} (key : A → Option String)
    (aChildren bChildren : List A) : Option (ReorderResult A) :=
  let bIdx := keyIndex key bChildren
  let aIdx := keyIndex key aChildren
  if bIdx.free.length = bChildren.length ∨ aIdx.free.length = aChildren.length
  then
    some ⟨bChildren.map some, none⟩
  else
    let scan := reorderScanA key bChildren bIdx.keys bIdx.free aChildren
    let lastFreeIndex :=
      if bIdx.free.length ≤ scan.freeIndex then bChildren.length
      else bIdx.free.getD scan.freeIndex 0
    let newChildren :=
      reorderAppendB key aIdx.keys lastFreeIndex bChildren scan.newChildren
    match simLoop key bChildren bIdx.keys
      ⟨newChildren, 0, [], []⟩ 0 (2 * bChildren.length + newChildren.length + 1)
    with
    | none => none
    | some st =>
        let st := trailingRemoves key st (st.simulate.length + 1)
        if st.removes.length = scan.deletedItems ∧ st.inserts = [] then
          some ⟨newChildren, none⟩
        else
          some ⟨newChildren, some ⟨st.removes, st.inserts⟩⟩

/-! ### Interpreting a moves record

`applyMoves` mirrors `reorderChildren` of `src/vpatch.ts` (lines 583-604) on
the aligned children list: each remove detaches the element at its `from`
index, remembering it under its key when the key is truthy; each insert
re-attaches the remembered element at its `to` index. An insert whose key
was never remembered is tolerated as a no-op (spec §7). -/

/-- Apply the removes of a moves record, building the key map. -/
def applyRemoves {A : Type} :
    List MoveRemove → List (Option A) → List (String × Option A) →
    List (Option A) × List (String × Option A)
  | [], arr, keyMap => (arr, keyMap)
  | r :: rest, arr, keyMap =>
      let node : Option A :=
        match arr.get? r.fromIdx with
        | some v => v
        | none => none
      let keyMap' :=
        if jsKeyTruthy r.key then
          keyMap.filter (fun p => p.1 ≠ jsKeyStr r.key) ++
            [(jsKeyStr r.key, node)]
        else keyMap
      applyRemoves rest (arr.eraseIdx r.fromIdx) keyMap'

/-- Lookup in a remembered key map. -/
def kmFind {A : Type} (keyMap : List (String × Option A)) (s : String) :
    Option (Option A) :=
  (keyMap.find? (fun p => p.1 == s)).map Prod.snd

/-- Apply the inserts of a moves record using a key lookup (an insert whose
key is not remembered is a tolerated no-op, spec §7; an insert position at
or beyond the end appends). -/
def applyInserts {A : Type} :
    List MoveInsert → List (Option A) → (String → Option (Option A)) →
    List (Option A)
  | [], arr, _ => arr
  | i :: rest, arr, km =>
      match km (jsKeyStr i.key) with
      | some node =>
          applyInserts rest (arr.insertIdx (min i.toIdx arr.length) node) km
      | none => applyInserts rest arr km

/-- Remove-then-insert interpretation of a moves record against the aligned
child ordering. -/
def applyMoves {A : Type} (children : List (Option A)) (m : Moves) :
    List (Option A) :=
  let (arr, keyMap) := applyRemoves m.removes children []
  applyInserts m.inserts arr (kmFind keyMap)

/-- Drop the `null` deletion placeholders (their live nodes are detached by
the per-position `Remove` patches). -/
def dropNulls {A : Type} (xs : List (Option A)) : List A :=
  xs.filterMap id

/-- Keyed item type for concrete reorder runs: a key and an identity tag. -/
structure KItem where
  key : Option String
  tag : Nat
  deriving Repr, DecidableEq

/-- Old child list `[{key:"a"}, {key:"b"}]`. -/
def kListA : List KItem := [⟨some "a", 0⟩, ⟨some "b", 1⟩]

/-- New child list `[{key:"b"}, {key:"b"}]` with a duplicated key. -/
def kListB : List KItem := [⟨some "b", 2⟩, ⟨some "b", 3⟩]

/-- Claim C5 counterexample (no key-uniqueness assumed, as stated): both
`[{key:"a"},{key:"b"}]` and `[{key:"b"},{key:"b"}]` contain keyed items, yet
the produced moves record is not correct — applying its removes and then its
inserts to the aligned children loses the first `{key:"b"}` item, so the
result does not equal the new child order (and no interpretation can recover
it: the item is absent from the aligned list entirely). -/
theorem c5_counterexample :
    ∃ r : ReorderResult KItem, reorder KItem.key kListA kListB = some r ∧
      ∃ m : Moves, r.moves = some m ∧
        dropNulls (applyMoves r.children m) ≠ kListB := by
  refine ⟨⟨[none, some ⟨some "b", 3⟩], some ⟨[⟨0, none⟩], [⟨some "b", 1⟩]⟩⟩,
    by decide, ⟨[⟨0, none⟩], [⟨some "b", 1⟩]⟩, by decide, by decide⟩

/-! ## Property diffing (`src/vtree.ts` lines 662-705)

`diffProps` is typed `(a: Props, b: Props) -> Props` but its recursive call
passes arbitrary property values after unchecked casts, so the embedding
works on `PropValue`. JS semantics relevant here:

* `for (key in x)` over a primitive string enumerates its character
  indices; over `undefined`, a number or a plain object it enumerates the
  own properties (none for the first two).
* `key in x` throws a `TypeError` when `x` is a primitive or `undefined`.
* a primitive string/number is not an `instanceof` `String`/`Number`
  wrapper object, so the first two branches of the value dispatch never
  fire (property values are primitives). -/

/-- Own enumerable slots of a value, as enumerated by `iterSlots`
(src/utilities.ts): object entries for a dict, indexed characters for a
string, nothing for numbers and `undefined`. A `VHook` argument cannot
reach `iterSlots` from `diffProps` (hook-valued sides are dispatched away
before the recursive call). -/
def ownSlots : PropValue → List (String × PropValue)
  | .dict entries => entries
  | .str s => s.toList.enum.map (fun p => (toString p.1, .str (String.singleton p.2)))
  | _ => []

/-- The JS `key in x` test: membership for an object, a `TypeError` for a
primitive or `undefined` operand. A `VHook` operand is an object (its own
fields are not modelled; no reachable call passes one). -/
def jsIn (k : String) : PropValue → Except String Bool
  | .dict entries => .ok (entries.any (fun p => p.1 == k))
  | .hookV _ => .ok false
  | _ => .error "TypeError: cannot use the in operator"

/-- Property read `x[k]` on an object (`undefined` when absent); only
reached after `jsIn` succeeded. -/
def jsGetProp (v : PropValue) (k : String) : PropValue :=
  match v with
  | .dict entries =>
      match (entries.find? (fun p => p.1 == k)).map Prod.snd with
      | some pv => pv
      | none => .undefV
  | _ => .undefV

/-- JS object write `diff[k] = v` (overwrite). -/
def propsSet (ps : Props) (k : String) (v : PropValue) : Props :=
  ps.filter (fun p => p.1 ≠ k) ++ [(k, v)]

/-- The `instanceof VHook` guard on property values. -/
def PropValue.isHook : PropValue → Bool
  | .hookV _ => true
  | _ => false

/-- The second `iterSlots` loop of `diffProps`: add the keys present only
in `b`. -/
def diffPropsAddNew (b a : PropValue) :
    List (String × PropValue) → Props → Except String Props
  | [], acc => .ok acc
  | (bKey, bValue) :: rest, acc => do
      let inA ← jsIn bKey a
      diffPropsAddNew b a rest
        (if !inA then propsSet acc bKey bValue else acc)

mutual

/-- The `diffProps` function. The `bValue instanceof Number` and
`bValue instanceof String` branches are omitted: property values are
primitives, never wrapper objects, so those two tests are always false.
The fuel decreases at every recursive call so that the recursion is
structural (any fuel exceeding the total number of slots involved is
enough; the evaluation theorems use concrete fuel). -/
def diffProps : Nat → PropValue → PropValue → Except String Props
  | 0, _, _ => .error "out of fuel"
  | fuel + 1, a, b => do
      let d1 ← diffPropsLoop fuel a b (ownSlots a) []
      diffPropsAddNew b a (ownSlots b) d1

/-- The first `iterSlots` loop of `diffProps` over the slots of `a`. -/
def diffPropsLoop : Nat → PropValue → PropValue →
    List (String × PropValue) → Props → Except String Props
  | _, _, _, [], acc => .ok acc
  | 0, _, _, _ :: _, _ => .error "out of fuel"
  | fuel + 1, a, b, (aKey, aValue) :: rest, acc => do
      let inB ← jsIn aKey b
      let acc := if !inB then propsSet acc aKey .undefV else acc
      let bValue := jsGetProp b aKey
      let acc ←
        if !(PropValue.beq aValue bValue) then
          match bValue with
          | .hookV _ =>
              -- `bValue instanceof VHook`: replace unless `aValue` is a hook
              pure (if aValue.isHook then acc else propsSet acc aKey bValue)
          | _ =>
              -- `aValue instanceof Number || aValue instanceof String`
              -- is false for primitives; only the `VHook` test can fire
              if aValue.isHook then
                pure (propsSet acc aKey bValue)
              else do
                let dictDiff ← diffProps fuel aValue bValue
                pure (propsSet acc aKey (.dict dictDiff))
        else
          pure acc
      diffPropsLoop fuel a b rest acc

end

/-- Claim C9 (code_bug): diffing the properties `{color:"red"}` against `{}`
does not produce an unset delta — it throws. The missing key first maps to
`undefined` as the claim says, but the loop then falls through to the
value-dispatch chain, treats the primitive string `"red"` as a nested
dictionary (a primitive is not an `instanceof String`), and recurses with
`diffProps("red", undefined)`, where `"0" in undefined` raises a
`TypeError`. -/
theorem c9_diff_props_code_bug :
    diffProps 5 (.dict [("color", .str "red")]) (.dict []) =
      .error "TypeError: cannot use the in operator" := by
  rfl

/-! ## The diff engine (`src/vtree.ts` lines 292-479)

`walk`'s second argument can be a tree, `null` (deletion) or `undefined`
(read past the end of a child array), hence the three-valued `BArg`; the
first argument ranges over the same values. The patch store is a sparse
array `patches : List (Nat × List VPatch)`; a read of an unpopulated slot
yields `undefined`, and the immediate `apply.length` on it throws (the store
is never initialized anywhere, which is what claim C2 is about).

Instrumentation: every invocation of the teardown sweep `clearState(a, …,
index)` made by `walk` is logged as a pair `(index, a)` in the second
component of the threaded `WalkState` — it is an observer only, needed
because a sweep over a text leaf appends no patch and would otherwise be
invisible.

All functions of the cluster take a fuel that strictly decreases at every
call, making the recursion structural; any sufficiently large fuel gives
the source behaviour (the source recursion terminates on trees because
forced thunk results are subterms). -/

/-- The value of `walk`'s tree arguments: a tree, JS `null`, or `undefined`. -/
inductive BArg where
  | null : BArg
  | undefV : BArg
  | tree (t : VTree) : BArg

/-- JS strict equality `a === b` on walk arguments (structural equality on
trees over-approximates reference equality; see `PropValue.beq`). -/
def jsStrictEqB : BArg → BArg → Bool
  | .null, .null => true
  | .undefV, .undefV => true
  | .tree a, .tree b => VTree.beq a b
  | _, _ => false

/-- The `instanceof Widget` guard on a walk argument. -/
def BArg.isWidget : BArg → Bool
  | .tree t => t.isWidget
  | _ => false

/-- The `instanceof Thunk` guard on a walk argument. -/
def BArg.isThunk : BArg → Bool
  | .tree t => t.isThunk
  | _ => false

/-- Read the `properties` field of an element node. -/
def VTree.propsOf : VTree → Props
  | .vnode _ properties _ _ _ _ _ _ _ _ => properties
  | _ => []

/-- Children of a walk argument (element nodes only). -/
def BArg.childrenOf : BArg → List VTree
  | .tree t => t.childrenOf
  | _ => []

/-- Patch kinds (`src/vpatch.ts` VPatch classes, as constructed by the diff
engine in `src/vtree.ts`). A `thunkP` carries the nested patch set
(`node0` plus its sparse patch store). -/
inductive VPatch where
  | removeP (vNode : BArg) : VPatch
  | insertP (vNode : VTree) : VPatch
  | vtextP (vNode : BArg) (patch : VTree) : VPatch
  | vnodeP (vNode : BArg) (patch : VTree) : VPatch
  | widgetP (vNode : BArg) (patch : VTree) : VPatch
  | propsP (vNode : BArg) (patch : Props) : VPatch
  | orderP (vNode : BArg) (moves : Moves) : VPatch
  | thunkP (node0 : BArg) (patches : List (Nat × List VPatch)) : VPatch

/-- The sparse patch store of a patch set. -/
abbrev Patches := List (Nat × List VPatch)

/-- Read `patch.patches[index]`: `none` is the JS `undefined` of an
unpopulated slot. -/
def patchesGet (ps : Patches) (i : Nat) : Option (List VPatch) :=
  (ps.find? (fun p => p.1 == i)).map Prod.snd

/-- Write `patch.patches[index] = l` (JS sparse array store). -/
def patchesSet (ps : Patches) (i : Nat) (l : List VPatch) : Patches :=
  ps.filter (fun p => p.1 ≠ i) ++ [(i, l)]

/-- A patch set `{node0, patches}` (`VPatchSet` of src/vpatch.ts). -/
structure VPatchSetE where
  node0 : BArg
  patches : Patches

/-- The threaded state: the sparse patch store plus the instrumentation log
of teardown-sweep invocations. -/
abbrev WalkState := Patches × List (Nat × BArg)

/-- The `iterSparseArray` helper (src/unnamed/part_001 lines 18-26): runs
the callback over every populated slot for effect only; its return value is
discarded and nothing is returned. -/
def iterSparseArray {A B : Type} (ary : List (Nat × A)) (fn : A → Nat → B) :
    Unit :=
  (ary.map (fun p => fn p.2 p.1)) |> fun _ => ()

/-- The `hasPatches` function (src/vtree.ts lines 466-470): the callback
returns `true`, but `iterSparseArray` discards every callback result, so
control always reaches the final `return false`. -/
def hasPatches (patch : VPatchSetE) : Bool :=
  let _ := iterSparseArray patch.patches (fun _ _ => true)
  false

/-- The `undefinedKeys` helper (src/vtree.ts lines 472-479): map every slot
of the dictionary to `undefined`. -/
def undefinedKeys (obj : List (String × VHookRec)) : Props :=
  obj.foldl (fun acc p => propsSet acc p.1 .undefV) []

/-- Value returned by `Thunk.render` in the walk embedding: the
defunctionalized `coreRender` ignores its `prior` argument, so the call
returns the cache when memoized (a `null` cache gives `null`) and the
render result otherwise; the memo write-back changes no value the diff
subsequently reads. Non-thunk arguments never reach this function. -/
def thunkRenderValue : VTree → BArg
  | .thunk result hasRendered cache _ =>
      if hasRendered then
        match cache with
        | some c => .tree c
        | none => .null
      else .tree result
  | t => .tree t

/-- The `Thunk.handle` module function (src/vtree.ts lines 195-216): force
whichever sides are thunks. -/
def thunkHandle (a b : BArg) : BArg × BArg :=
  match a, b with
  | .tree ta, .tree tb =>
      if ta.isThunk && tb.isThunk then
        (thunkRenderValue ta, thunkRenderValue tb)
      else if tb.isThunk then (a, thunkRenderValue tb)
      else if ta.isThunk then (thunkRenderValue ta, b)
      else (a, b)
  | .tree ta, _ => if ta.isThunk then (thunkRenderValue ta, b) else (a, b)
  | _, .tree tb => if tb.isThunk then (a, thunkRenderValue tb) else (a, b)
  | _, _ => (a, b)

/-- The `a instanceof VNode && a.tagName === b.tagName && a.key === b.key`
match test of `walk`'s element branch. -/
def tagKeyMatch (a : BArg) (bt : VTree) : Bool :=
  match a, bt with
  | .tree (.vnode tg1 _ _ k1 _ _ _ _ _ _), .vnode tg2 _ _ k2 _ _ _ _ _ _ =>
      tg1 == tg2 && k1 == k2
  | _, _ => false

/-- The `a instanceof VText && a.text !== b.text` test of `walk`'s text
branch. -/
def vtextMismatch (a : BArg) (textB : String) : Bool :=
  match a with
  | .tree (.vtext ta _) => ta != textB
  | _ => false

mutual

/-- The `walk` function (src/vtree.ts lines 299-369). `var apply =
patch.patches[index]; var patchCount = apply.length;` runs before any
branch, so an unpopulated slot throws immediately. In the deletion branch
for a non-widget `a`, `apply = apply.slice(0, patchCount)` detaches `apply`
from the store, so the `REMOVE` pushed afterwards is lost (only the patches
`clearState` pushed survive); for a widget `a` the push lands in the store.
The `mustClear` flag of the source is realized by calling `clearState` at
the end of the branches that set it. -/
def walk : Nat → BArg → BArg → WalkState → Nat → Except String WalkState
  | 0, _, _, _, _ => .error "out of fuel"
  | fuel + 1, a, b, st, index =>
    if jsStrictEqB a b then pure st
    else
      match patchesGet st.1 index with
      | none => .error "TypeError: cannot read length of undefined"
      | some apply0 =>
        match b with
        | .null =>
            if !(BArg.isWidget a) then
              clearState fuel a (st.1, st.2 ++ [(index, a)]) index
            else
              pure (patchesSet st.1 index (apply0 ++ [.removeP a]), st.2)
        | .undefV =>
            -- `b === null` is a strict test, false for `undefined`, so the
            -- thunk dispatch still fires for a thunk prior; after it the
            -- `instanceof` chain matches nothing: no patch, no sweep
            if BArg.isThunk a then thunksFn fuel a b st index
            else pure st
        | .tree bt =>
            if BArg.isThunk a || bt.isThunk then
              thunksFn fuel a b st index
            else
              match bt with
              | .vnode _ bProps _ _ _ _ _ _ _ _ =>
                  if tagKeyMatch a bt then do
                    let propsPatch ← diffProps fuel
                      (.dict (match a with
                        | .tree ta => ta.propsOf
                        | _ => [])) (.dict bProps)
                    -- `if (propsPatch)`: diffProps returns an object,
                    -- which is always truthy
                    let st1 : WalkState :=
                      (patchesSet st.1 index
                        (apply0 ++ [.propsP a propsPatch]), st.2)
                    diffChildren fuel a bt st1 index
                  else do
                    let st1 : WalkState :=
                      (patchesSet st.1 index (apply0 ++ [.vnodeP a bt]), st.2)
                    clearState fuel a (st1.1, st1.2 ++ [(index, a)]) index
              | .vtext textB _ =>
                  let st1 : WalkState :=
                    (patchesSet st.1 index (apply0 ++ [.vtextP a bt]), st.2)
                  if vtextMismatch a textB then pure st1
                  else clearState fuel a (st1.1, st1.2 ++ [(index, a)]) index
              | .widget _ _ _ _ =>
                  let st1 : WalkState :=
                    (patchesSet st.1 index (apply0 ++ [.widgetP a bt]), st.2)
                  if BArg.isWidget a then pure st1
                  else clearState fuel a (st1.1, st1.2 ++ [(index, a)]) index
              | .thunk _ _ _ _ =>
                  -- unreachable: the thunk test above caught this case
                  pure st
termination_by structural fuel _ _ _ _ => fuel


/-- The `diffChildren` function (src/vtree.ts lines 371-401): reorder the
b-children against the a-children, co-walk them positionally, and append an
`ORDER` patch at the parent position when moves were produced. A `none`
result of `reorder` is the fuel cut of its simulation loop (inputs on which
the source loops forever). -/
def diffChildren : Nat → BArg → VTree → WalkState → Nat →
    Except String WalkState
  | 0, _, _, _, _ => .error "out of fuel"
  | fuel + 1, a, bt, st, index =>
      let aChildren := a.childrenOf
      match reorder VTree.keyOf aChildren bt.childrenOf with
      | none => .error "reorder simulation does not terminate"
      | some orderedSet => do
          let bChildren := orderedSet.children
          let len := max aChildren.length bChildren.length
          let st1 ← diffChildrenLoop fuel aChildren bChildren len 0
            st index index
          let st1 := st1.1
          match orderedSet.moves with
          | some m =>
              match patchesGet st1.1 index with
              | none => .error "TypeError: cannot read push of undefined"
              | some l =>
                  pure (patchesSet st1.1 index (l ++ [.orderP a m]), st1.2)
          | none => pure st1
termination_by structural fuel _ _ _ _ => fuel


/-- The `iter(len, …)` loop of `diffChildren`: `i` is the loop counter,
`remaining = len - i` drives the recursion, `parentIndex` is where `INSERT`
patches are pushed (`apply` stays aliased to the parent slot), and
`runningIndex` is the mutated `index` local. Missing `aChildren[i]` is
`undefined`; a `bChildren[i]` read is `undefined` past the end and `null` at
a deletion placeholder. -/
def diffChildrenLoop : Nat → List VTree → List (Option VTree) → Nat → Nat →
    WalkState → Nat → Nat → Except String (WalkState × Nat)
  | 0, _, _, _, _, _, _, _ => .error "out of fuel"
  | _ + 1, _, _, 0, _, st, _, runningIndex => pure (st, runningIndex)
  | fuel + 1, aChildren, bChildren, remaining + 1, i, st, parentIndex,
      runningIndex => do
      let leftNode : Option VTree := aChildren.get? i
      let rightNode : Option (Option VTree) := bChildren.get? i
      let runningIndex := runningIndex + 1
      let st ←
        match leftNode, rightNode with
        | none, some (some rt) =>
            -- `!leftNode && rightNode`: excess node in b, push INSERT at
            -- the parent position
            match patchesGet st.1 parentIndex with
            | none => .error "TypeError: cannot read push of undefined"
            | some l =>
                pure ((patchesSet st.1 parentIndex (l ++ [.insertP rt]),
                  st.2) : WalkState)
        | _, _ =>
            walk fuel
              (match leftNode with
                | some lt => .tree lt
                | none => .undefV)
              (match rightNode with
                | some (some rt) => .tree rt
                | some none => .null
                | none => .undefV)
              st runningIndex
      let runningIndex := runningIndex +
        (match leftNode with
          | some lt => lt.countOf
          | none => 0)
      diffChildrenLoop fuel aChildren bChildren remaining (i + 1) st
        parentIndex runningIndex
termination_by structural fuel _ _ _ _ _ _ _ => fuel


/-- The `clearState` function (src/vtree.ts lines 404-408): unhook, then
destroy widgets. -/
def clearState : Nat → BArg → WalkState → Nat → Except String WalkState
  | 0, _, _, _ => .error "out of fuel"
  | fuel + 1, vNode, st, index => do
      let st ← unhook fuel vNode st index
      destroyWidgets fuel vNode st index
termination_by structural fuel _ _ _ => fuel


/-- The `clearState.destroyWidgets` function (src/vtree.ts lines 413-428):
push a `REMOVE` for a widget, recurse under an element node when its
`hasWidgets`/`hasThunks` flags indicate work, force a thunk against `null`. -/
def destroyWidgets : Nat → BArg → WalkState → Nat → Except String WalkState
  | 0, _, _, _ => .error "out of fuel"
  | fuel + 1, vNode, st, index =>
    match vNode with
    | .tree (.widget _ _ _ _) =>
        match patchesGet st.1 index with
        | none => .error "TypeError: cannot read push of undefined"
        | some l =>
            pure (patchesSet st.1 index (l ++ [.removeP vNode]), st.2)
    | .tree (.vnode _ _ children _ _ _ hasWidgets hasThunks _ _) =>
        if hasWidgets || hasThunks then
          destroyWidgetsChildren fuel children st index
        else pure st
    | .tree (.thunk _ _ _ _) => thunksFn fuel vNode .null st index
    | _ => pure st
termination_by structural fuel _ _ _ => fuel


/-- The child loop of `destroyWidgets` with the position arithmetic
`index += 1; …; if (child instanceof VNode) index += child.count`. -/
def destroyWidgetsChildren : Nat → List VTree → WalkState → Nat →
    Except String WalkState
  | 0, _, _, _ => .error "out of fuel"
  | _ + 1, [], st, _ => pure st
  | fuel + 1, child :: rest, st, index => do
      let index := index + 1
      let st ← destroyWidgets fuel (.tree child) st index
      destroyWidgetsChildren fuel rest st (index + child.countOf)
termination_by structural fuel _ _ _ => fuel


/-- The `clearState.unhook` function (src/vtree.ts lines 431-454). The
`if (vNode.hooks)` guard is always satisfied — the `VNode` constructor
initializes `hooks` to an (often empty) object, which is truthy — so a
`PROPS` patch unsetting the collected hook keys is pushed for every element
node the sweep reaches. -/
def unhook : Nat → BArg → WalkState → Nat → Except String WalkState
  | 0, _, _, _ => .error "out of fuel"
  | fuel + 1, vNode, st, index =>
    match vNode with
    | .tree (.vnode _ _ children _ _ _ _ hasThunks descendantHooks hooks) => do
        let st ←
          match patchesGet st.1 index with
          | none => .error "TypeError: cannot read push of undefined"
          | some l =>
              pure ((patchesSet st.1 index
                (l ++ [.propsP vNode (undefinedKeys hooks)]), st.2) :
                WalkState)
        if descendantHooks || hasThunks then
          unhookChildren fuel children st index
        else pure st
    | .tree (.thunk _ _ _ _) => thunksFn fuel vNode .null st index
    | _ => pure st
termination_by structural fuel _ _ _ => fuel


/-- The child loop of `unhook`, with the same position arithmetic as
`destroyWidgetsChildren`. -/
def unhookChildren : Nat → List VTree → WalkState → Nat →
    Except String WalkState
  | 0, _, _, _ => .error "out of fuel"
  | _ + 1, [], st, _ => pure st
  | fuel + 1, child :: rest, st, index => do
      let index := index + 1
      let st ← unhook fuel (.tree child) st index
      unhookChildren fuel rest st (index + child.countOf)
termination_by structural fuel _ _ _ => fuel


/-- The `thunks` function (src/vtree.ts lines 458-464): force both sides,
diff the forced results, and — when `hasPatches` reports content — replace
the patch list at this position with a single `THUNK` patch. The call
`diff(nodes.a, nodes.b)` is unfolded into the call site (the `diff` wrapper
is defined right after this cluster): it builds the nested patch set
`{node0: nodes.a, patches: []}` over a fresh empty store and walks. The
nested diff's instrumentation log is local to that diff invocation. -/
def thunksFn : Nat → BArg → BArg → WalkState → Nat → Except String WalkState
  | 0, _, _, _, _ => .error "out of fuel"
  | fuel + 1, a, b, st, index =>
      let nodes := thunkHandle a b
      match walk fuel nodes.1 nodes.2 ([], []) 0 with
      | .error e => .error e
      | .ok stN =>
          let thunkPatch : VPatchSetE := ⟨nodes.1, stN.1⟩
          if hasPatches thunkPatch then
            pure (patchesSet st.1 index
              [.thunkP thunkPatch.node0 thunkPatch.patches], st.2)
          else pure st
termination_by structural fuel _ _ _ _ => fuel
end

/-- The `diff` function (src/vtree.ts lines 292-296): build the patch set
`{node0: a, patches: []}` (the patch store starts empty, and no code path
ever populates `patches[index]` before `walk` reads it) and walk. -/
def diff : Nat → BArg → BArg → Except String (VPatchSetE × List (Nat × BArg))
  | 0, _, _ => .error "out of fuel"
  | fuel + 1, a, b =>
      match walk fuel a b ([], []) 0 with
      | .error e => .error e
      | .ok st => pure (⟨a, st.1⟩, st.2)

/-! ### Claims C2, C4, C8, C10 -/

/-- Concrete text leaf. -/
def vtX : VTree := .vtext "x" none

/-- A different concrete text leaf. -/
def vtY : VTree := .vtext "y" none

/-- Claim C2 (code_bug): `diff` is not total. `diff` creates the patch set
with an empty `patches` store, and `walk` reads `patch.patches[index]` and
takes `.length` on it before any branch, so for any two arguments that are
not reference-equal the first lookup yields `undefined` and the engine
throws a `TypeError` — the "absent" branch of the lookup, which the claim
says is unreachable, is always the one taken. -/
theorem c2_diff_crash_code_bug :
    (∀ (fuel : Nat) (a b : BArg), jsStrictEqB a b = false →
      diff (fuel + 2) a b =
        .error "TypeError: cannot read length of undefined") ∧
      diff 10 (.tree vtX) (.tree vtY) =
        .error "TypeError: cannot read length of undefined" := by
  constructor
  · intro fuel a b h
    have hw : walk (fuel + 1) a b ([], []) 0 =
        .error "TypeError: cannot read length of undefined" := by
      simp [walk, h, patchesGet]
    simp [diff, hw, Bind.bind, Except.bind]
  · rfl

/-- Witness for the universally quantified half of C2 at reference-distinct
arguments. -/
theorem c2_diff_crash_code_bug_witness :
    diff 2 (.tree vtX) (.tree vtY) =
      .error "TypeError: cannot read length of undefined" :=
  c2_diff_crash_code_bug.1 0 (.tree vtX) (.tree vtY) rfl

/-- A thunk forcing to the text "x". -/
def thunkX : VTree := .thunk (.vtext "x" none) false none none

/-- A thunk forcing to the text "y". -/
def thunkY : VTree := .thunk (.vtext "y" none) false none none

/-- Claim C4 (code_bug): a `THUNK` patch is never stored. `hasPatches`
returns `false` for every patch set (its `iterSparseArray` walk discards the
callback results), so the guard in `thunks` can never fire; worse, the
nested `diff` of two thunks whose forced results differ crashes on the
uninitialized patch store (claim C2), so `thunks` propagates a `TypeError`
instead of storing an `EnterThunk` patch at the position. -/
theorem c4_thunk_patch_code_bug :
    (∀ p : VPatchSetE, hasPatches p = false) ∧
      thunksFn 10 (.tree thunkX) (.tree thunkY) ([], []) 0 =
        .error "TypeError: cannot read length of undefined" :=
  ⟨fun _ => rfl, rfl⟩

/-- Text leaf `"x"` keyed `"p"`. -/
def textXP : VTree := .vtext "x" (some "p")

/-- Text leaf `"x"` keyed `"q"` — a distinct object with the same text. -/
def textXQ : VTree := .vtext "x" (some "q")

/-- Claim C8 counterexample: diffing the text leaf `"x"` (key `"p"`)
against the distinct text leaf `"x"` (key `"q"`) emits the `VTEXT` patch
and ALSO invokes the teardown sweep (the instrumentation log records the
`clearState` call) although the prior value is a text leaf — the claim
says no sweep runs for a text-leaf prior. -/
theorem c8_equal_text_sweep_counterexample :
    walk 10 (.tree textXP) (.tree textXQ) ([(0, [])], []) 0 =
      .ok ([(0, [.vtextP (.tree textXP) textXQ])], [(0, .tree textXP)]) := by
  rfl

/-- Claim C8 (corrected): against a text leaf `b`, for EVERY prior value `a`
— a tree, `null` or `undefined`; a thunk prior is intercepted by the thunk
dispatch before this branch — `walk` appends a `ReplaceText` patch (also
when `a` is a text leaf with unchanged text), and it invokes the teardown
sweep on `a` unless `a` is a text leaf whose text differs from `b`\'s — not,
as claimed, never for a text-leaf prior: the source skips the sweep only in
the `a instanceof VText && a.text !== b.text` branch. -/
theorem c8_text_branch_amended (fuel : Nat) (a : BArg) (sb : String)
    (kb : Option String) (ps : Patches) (log : List (Nat × BArg))
    (index : Nat) (l : List VPatch)
    (hget : patchesGet ps index = some l)
    (href : jsStrictEqB a (.tree (.vtext sb kb)) = false)
    (hth : BArg.isThunk a = false) :
    walk (fuel + 1) a (.tree (.vtext sb kb)) (ps, log) index =
      (if vtextMismatch a sb then
        .ok (patchesSet ps index (l ++ [.vtextP a (.vtext sb kb)]), log)
      else
        clearState fuel a
          (patchesSet ps index (l ++ [.vtextP a (.vtext sb kb)]),
            log ++ [(index, a)]) index) := by
  cases a with
  | null =>
      rw [walk, if_neg (show ¬jsStrictEqB BArg.null
        (.tree (.vtext sb kb)) = true by simp [jsStrictEqB]), hget]
      · rfl
      · intro t h
        cases h
  | undefV =>
      rw [walk, if_neg (show ¬jsStrictEqB BArg.undefV
        (.tree (.vtext sb kb)) = true by simp [jsStrictEqB]), hget]
      · rfl
      · intro t h
        cases h
  | tree t =>
      have hth2 : VTree.isThunk t = false := hth
      rw [walk, if_neg (show ¬jsStrictEqB (BArg.tree t)
        (.tree (.vtext sb kb)) = true by rw [href]; simp), hget]
      cases t <;> try rfl
      simp [VTree.isThunk] at hth2

/-- Witness for the amended C8 at distinct-text leaves: the hypotheses hold
at the concrete input — the slot is populated, the leaves are not
reference-equal, the prior is no thunk — and the applied theorem computes to
the single appended `VTEXT` patch with no sweep invoked. -/
theorem c8_text_branch_amended_witness :
    walk 8 (.tree (.vtext "x" (some "p"))) (.tree (.vtext "y" (some "p")))
        ([(0, [])], []) 0 =
      .ok ([(0, [.vtextP (.tree (.vtext "x" (some "p")))
            (.vtext "y" (some "p"))])], []) := by
  have h := c8_text_branch_amended 7 (.tree (.vtext "x" (some "p"))) "y"
    (some "p") [(0, [])] [] 0 [] rfl rfl rfl
  rw [h]
  rfl

/-- A node carrying one hook property that has an unhook callback. -/
def nodeWithUnhookableHook : VTree :=
  mkVNode "div" [("p", .hookV (VHookRec.make 1 (some 2)))] []

/-- A node carrying one hook property without an unhook callback. -/
def nodeWithPlainHook : VTree :=
  mkVNode "div" [("p", .hookV (VHookRec.make 1 none))] []

/-- Claim C10 (code_bug): the teardown sweep's hook handling is doubly
inverted. The `VHook` constructor sets `mustUnhook = !unhook`, so the
constructor collects into `hooks` exactly the hook properties WITHOUT an
unhook callback (the node with an unhook-capable hook gets `hooks = {}`);
and `clearState.unhook` appends its `UpdateProps` patch for every element
node it reaches because `if (vNode.hooks)` tests an always-truthy object —
the node carrying an unhook-capable hook gets a patch unsetting nothing,
while the node whose hook has no unhook callback gets its hook key unset. -/
theorem c10_unhook_sweep_code_bug :
    (VHookRec.make 1 (some 2)).mustUnhook = false ∧
    nodeWithUnhookableHook.hooksOf = [] ∧
    nodeWithPlainHook.hooksOf = [("p", VHookRec.make 1 none)] ∧
    unhook 10 (.tree nodeWithUnhookableHook) ([(0, [])], []) 0 =
      .ok ([(0, [.propsP (.tree nodeWithUnhookableHook) []])], []) ∧
    unhook 10 (.tree nodeWithPlainHook) ([(0, [])], []) 0 =
      .ok ([(0, [.propsP (.tree nodeWithPlainHook) [("p", .undefV)]])], []) :=
  ⟨rfl, rfl, rfl, rfl, rfl⟩

/-! ### Claim C5, amended: correctness of `reorder` for key-unique lists

Supporting development. Throughout, an item is *keyed* when its key is
truthy (a nonempty string); keys are *unique* in a list when no truthy key
occurs twice. The proof follows the source's own simulation: an invariant
over the simulation state shows that replaying the recorded removes on the
aligned children reproduces the evolving `simulate` array, and that the
recorded inserts, applied to the consumed prefix, rebuild exactly the
processed prefix of the new children. -/

/-- Truthy-key test. -/
def isKeyed {A : Type} (key : A → Option String) (x : A) : Bool :=
  jsKeyTruthy (key x)

/-- The unkeyed items of a list, in order. -/
def unkeyedOf {A : Type} (key : A → Option String) (l : List A) : List A :=
  l.filter (fun x => !isKeyed key x)

/-- The occurrences carrying the truthy key `s`, in order. -/
def keyFilter {A : Type} (key : A → Option String) (s : String)
    (l : List A) : List A :=
  l.filter (fun x => isKeyed key x && jsKeyStr (key x) == s)

/-- The truthy keys of a list, in order. -/
def keysOf {A : Type} (key : A → Option String) (l : List A) : List String :=
  l.filterMap (fun x => if isKeyed key x then some (jsKeyStr (key x)) else none)

/-- Truthy keys are unique within the list. -/
def UniqueKeys {A : Type} (key : A → Option String) (l : List A) : Prop :=
  (keysOf key l).Nodup

/-- Number of `null` entries. -/
def countNone {A : Type} (l : List (Option A)) : Nat :=
  (l.filter (fun e => e.isNone)).length

/-- The ideal key map: each truthy key of `b` is remembered as the unique
`b` item bearing it. -/
def kmIdeal {A : Type} (key : A → Option String) (b : List A) :
    String → Option (Option A) :=
  fun s =>
    match keyFilter key s b with
    | [x] => some (some x)
    | _ => none

theorem keysOf_append {A : Type} (key : A → Option String) (l1 l2 : List A) :
    keysOf key (l1 ++ l2) = keysOf key l1 ++ keysOf key l2 := by
  simp [keysOf, List.filterMap_append]

theorem keyFilter_append {A : Type} (key : A → Option String) (s : String)
    (l1 l2 : List A) :
    keyFilter key s (l1 ++ l2) = keyFilter key s l1 ++ keyFilter key s l2 := by
  simp [keyFilter, List.filter_append]

theorem unkeyedOf_append {A : Type} (key : A → Option String) (l1 l2 : List A) :
    unkeyedOf key (l1 ++ l2) = unkeyedOf key l1 ++ unkeyedOf key l2 := by
  simp [unkeyedOf, List.filter_append]

theorem keyFilter_sublist {A : Type} (key : A → Option String) (s : String)
    {l1 l2 : List A} (h : l1.Sublist l2) :
    (keyFilter key s l1).Sublist (keyFilter key s l2) :=
  List.Sublist.filter _ h

/-- The length of `keyFilter s l` is the multiplicity of `s` in `keysOf l`. -/
theorem keyFilter_length_eq_count {A : Type} (key : A → Option String)
    (s : String) (l : List A) :
    (keyFilter key s l).length = (keysOf key l).count s := by
  induction l with
  | nil => rfl
  | cons x xs ih =>
      by_cases hk : isKeyed key x = true
      · have h2 : keysOf key (x :: xs) =
            jsKeyStr (key x) :: keysOf key xs := by
          simp [keysOf, List.filterMap_cons, hk]
        by_cases hs : jsKeyStr (key x) = s
        · have h1 : keyFilter key s (x :: xs) = x :: keyFilter key s xs := by
            simp [keyFilter, List.filter_cons, hk, hs]
          rw [h1, h2, hs, List.length_cons, ih, List.count_cons_self]
        · have h1 : keyFilter key s (x :: xs) = keyFilter key s xs := by
            simp [keyFilter, List.filter_cons, hk, hs]
          rw [h1, h2, ih, List.count_cons_of_ne (fun hc => hs hc.symm)]
      · simp only [Bool.not_eq_true] at hk
        have h1 : keyFilter key s (x :: xs) = keyFilter key s xs := by
          simp [keyFilter, List.filter_cons, hk]
        have h2 : keysOf key (x :: xs) = keysOf key xs := by
          simp [keysOf, List.filterMap_cons, hk]
        rw [h1, h2, ih]

/-- Unique keys bound every `keyFilter` to at most one occurrence. -/
theorem UniqueKeys.filter_len {A : Type} {key : A → Option String}
    {l : List A} (h : UniqueKeys key l) (s : String) :
    (keyFilter key s l).length ≤ 1 := by
  rw [keyFilter_length_eq_count]
  exact List.nodup_iff_count_le_one.mp h s

/-- A nonempty `keyFilter` under unique keys is a singleton. -/
theorem UniqueKeys.filter_singleton {A : Type} {key : A → Option String}
    {l : List A} (h : UniqueKeys key l) {s : String} {x : A}
    (hx : x ∈ keyFilter key s l) : keyFilter key s l = [x] := by
  have hlen := h.filter_len s
  cases hf : keyFilter key s l with
  | nil => rw [hf] at hx; simp at hx
  | cons y t =>
      cases t with
      | nil =>
          rw [hf] at hx
          simp only [List.mem_singleton] at hx
          rw [hx]
      | cons z rest =>
          rw [hf] at hlen
          simp at hlen

/-- Membership in a `keyFilter`. -/
theorem mem_keyFilter {A : Type} {key : A → Option String} {s : String}
    {l : List A} {x : A} :
    x ∈ keyFilter key s l ↔
      x ∈ l ∧ isKeyed key x = true ∧ jsKeyStr (key x) = s := by
  simp [keyFilter, List.mem_filter]

/-- An element of a list with its own key names its `keyFilter` occurrence. -/
theorem self_mem_keyFilter {A : Type} {key : A → Option String} {l : List A}
    {x : A} (hx : x ∈ l) (hk : isKeyed key x = true) :
    x ∈ keyFilter key (jsKeyStr (key x)) l :=
  mem_keyFilter.mpr ⟨hx, hk, rfl⟩

theorem dropNulls_append {A : Type} (l1 l2 : List (Option A)) :
    dropNulls (l1 ++ l2) = dropNulls l1 ++ dropNulls l2 := by
  simp [dropNulls]

theorem dropNulls_cons_some {A : Type} (x : A) (l : List (Option A)) :
    dropNulls (some x :: l) = x :: dropNulls l := rfl

theorem dropNulls_cons_none {A : Type} (l : List (Option A)) :
    dropNulls (none :: l) = dropNulls l := rfl

theorem dropNulls_map_some {A : Type} (l : List A) :
    dropNulls (l.map some) = l := by
  induction l with
  | nil => rfl
  | cons x xs ih =>
      show x :: dropNulls (xs.map some) = x :: xs
      rw [ih]

theorem dropNulls_sublist {A : Type} {l1 l2 : List (Option A)}
    (h : l1.Sublist l2) : (dropNulls l1).Sublist (dropNulls l2) :=
  List.Sublist.filterMap _ h

theorem countNone_append {A : Type} (l1 l2 : List (Option A)) :
    countNone (l1 ++ l2) = countNone l1 + countNone l2 := by
  simp [countNone, List.filter_append]

/-- Erasing a valid index splits a list around that position. -/
theorem eraseIdx_eq_take_drop {A : Type} (l : List A) (i : Nat) :
    l.eraseIdx i = l.take i ++ l.drop (i + 1) :=
  List.eraseIdx_eq_take_drop_succ l i

/-! #### Replay and interpreter lemmas -/

theorem applyRemoves_append {A : Type} (R1 R2 : List MoveRemove)
    (arr : List (Option A)) (km : List (String × Option A)) :
    applyRemoves (R1 ++ R2) arr km =
      applyRemoves R2 (applyRemoves R1 arr km).1 (applyRemoves R1 arr km).2 := by
  induction R1 generalizing arr km with
  | nil => rfl
  | cons r rest ih =>
      rw [List.cons_append, applyRemoves, applyRemoves, ih]

/-- Lookup of the overwritten key after a key-map write. -/
theorem kmFind_set_self {A : Type} (km : List (String × Option A))
    (s : String) (v : Option A) :
    kmFind (km.filter (fun p => p.1 ≠ s) ++ [(s, v)]) s = some v := by
  induction km with
  | nil => simp [kmFind]
  | cons p rest ih =>
      by_cases hp : p.1 = s
      · simpa [List.filter_cons, hp] using ih
      · have hb : (p.1 == s) = false := by simpa using hp
        simp [List.filter_cons, hp, kmFind, List.find?_cons, hb]

/-- Lookup of a different key after a key-map write. -/
theorem kmFind_set_other {A : Type} (km : List (String × Option A))
    (s t : String) (v : Option A) (hts : t ≠ s) :
    kmFind (km.filter (fun p => p.1 ≠ s) ++ [(s, v)]) t = kmFind km t := by
  induction km with
  | nil =>
      have hb : (s == t) = false := by
        simp only [beq_eq_false_iff_ne]
        exact fun h => hts h.symm
      simp [kmFind, List.find?_cons, hb]
  | cons p rest ih =>
      have hst : (s == t) = false := by
        simp only [beq_eq_false_iff_ne]
        exact fun h => hts h.symm
      by_cases hp : p.1 = s
      · have hbt : (p.1 == t) = false := by
          simp only [beq_eq_false_iff_ne]
          rw [hp]
          exact fun h => hts h.symm
        simpa [List.filter_cons, hp, kmFind, List.find?_cons, hbt, hst] using ih
      · by_cases hpt : p.1 = t
        · simp [List.filter_cons, hp, kmFind, List.find?_cons, hpt, hst, hts]
        · have hbt : (p.1 == t) = false := by simpa using hpt
          simpa [List.filter_cons, hp, kmFind, List.find?_cons, hbt, hst] using ih

/-- Inserting inside the first block of an append acts on that block. -/
theorem insertIdx_append_left {A : Type} (a : A) :
    ∀ (n : Nat) (l1 l2 : List A), n ≤ l1.length →
      (l1 ++ l2).insertIdx n a = l1.insertIdx n a ++ l2 := by
  intro n
  induction n with
  | zero => intro l1 l2 _; simp [List.insertIdx_zero]
  | succ n ih =>
      intro l1 l2 hlen
      cases l1 with
      | nil => simp at hlen
      | cons x xs =>
          simp only [List.cons_append, List.insertIdx_succ_cons]
          rw [ih xs l2 (by simpa using hlen)]

/-- With every key resolvable, `applyInserts` adds one entry per insert. -/
theorem applyInserts_length {A : Type} :
    ∀ (I : List MoveInsert) (arr : List (Option A))
      (km : String → Option (Option A)),
      (∀ ins ∈ I, (km (jsKeyStr ins.key)).isSome = true) →
      (applyInserts I arr km).length = arr.length + I.length := by
  intro I
  induction I with
  | nil => intro arr km _; rfl
  | cons ins rest ih =>
      intro arr km hres
      have hs := hres ins (List.mem_cons_self ins rest)
      rw [applyInserts]
      cases hk : km (jsKeyStr ins.key) with
      | none => rw [hk] at hs; simp at hs
      | some v =>
          have := ih (arr.insertIdx (min ins.toIdx arr.length) v) km
            (fun i hi => hres i (List.mem_cons_of_mem _ hi))
          rw [this, List.length_insertIdx _ _ (Nat.min_le_right _ _)]
          simp only [List.length_cons]
          omega

/-- The base is a sublist of the interpreted result. -/
theorem sublist_applyInserts {A : Type} :
    ∀ (I : List MoveInsert) (arr : List (Option A))
      (km : String → Option (Option A)),
      arr.Sublist (applyInserts I arr km) := by
  intro I
  induction I with
  | nil => intro arr km; exact List.Sublist.refl arr
  | cons ins rest ih =>
      intro arr km
      rw [applyInserts]
      cases hk : km (jsKeyStr ins.key) with
      | none => exact ih arr km
      | some v =>
          refine List.Sublist.trans ?_ (ih _ km)
          have h2 : ((arr.insertIdx (min ins.toIdx arr.length) v).eraseIdx
              (min ins.toIdx arr.length)) = arr :=
            List.eraseIdx_insertIdx _ arr
          conv_lhs => rw [← h2]
          exact List.eraseIdx_sublist _ _

/-- Interpreting against a longer base acts on the prefix when every insert
position stays inside it. -/
theorem applyInserts_append_ext {A : Type} :
    ∀ (I : List MoveInsert) (arr ext : List (Option A))
      (km : String → Option (Option A)),
      (∀ i (h : i < I.length), (I.get ⟨i, h⟩).toIdx ≤ arr.length + i) →
      (∀ ins ∈ I, (km (jsKeyStr ins.key)).isSome = true) →
      applyInserts I (arr ++ ext) km = applyInserts I arr km ++ ext := by
  intro I
  induction I with
  | nil => intro arr ext km _ _; rfl
  | cons ins rest ih =>
      intro arr ext km hpos hres
      have hs := hres ins (List.mem_cons_self ins rest)
      have h0 : ins.toIdx ≤ arr.length := by
        have := hpos 0 (by simp)
        simpa using this
      rw [applyInserts, applyInserts]
      cases hk : km (jsKeyStr ins.key) with
      | none => rw [hk] at hs; simp at hs
      | some v =>
          have hmin1 : min ins.toIdx (arr ++ ext).length = ins.toIdx := by
            simp only [List.length_append]
            omega
          have hmin2 : min ins.toIdx arr.length = ins.toIdx := by omega
          rw [hmin1, hmin2]
          show applyInserts rest (List.insertIdx ins.toIdx v (arr ++ ext)) km =
            applyInserts rest (List.insertIdx ins.toIdx v arr) km ++ ext
          rw [insertIdx_append_left v ins.toIdx arr ext h0]
          refine ih (List.insertIdx ins.toIdx v arr) ext km ?_
            (fun i hi => hres i (List.mem_cons_of_mem _ hi))
          intro i h
          have h2 := hpos (i + 1) (by simpa using Nat.succ_lt_succ h)
          rw [List.length_insertIdx _ _ h0]
          simp only [List.get_cons_succ] at h2
          omega

/-- Interpreting a snoc of inserts. -/
theorem applyInserts_snoc {A : Type} :
    ∀ (I : List MoveInsert) (ins : MoveInsert) (arr : List (Option A))
      (km : String → Option (Option A)),
      applyInserts (I ++ [ins]) arr km =
        match km (jsKeyStr ins.key) with
        | some v =>
            (applyInserts I arr km).insertIdx
              (min ins.toIdx (applyInserts I arr km).length) v
        | none => applyInserts I arr km := by
  intro I
  induction I with
  | nil =>
      intro ins arr km
      cases hk : km (jsKeyStr ins.key) with
      | some v => simp [applyInserts, hk]
      | none => simp [applyInserts, hk]
  | cons i0 rest ih =>
      intro ins arr km
      rw [List.cons_append, applyInserts, applyInserts]
      cases hk : km (jsKeyStr i0.key) with
      | some v => exact ih ins _ km
      | none => exact ih ins arr km

/-- The interpreter only consults the key map at the insert keys. -/
theorem applyInserts_congr {A : Type} :
    ∀ (I : List MoveInsert) (arr : List (Option A))
      (km1 km2 : String → Option (Option A)),
      (∀ ins ∈ I, km1 (jsKeyStr ins.key) = km2 (jsKeyStr ins.key)) →
      applyInserts I arr km1 = applyInserts I arr km2 := by
  intro I
  induction I with
  | nil => intro arr km1 km2 _; rfl
  | cons ins rest ih =>
      intro arr km1 km2 hagree
      have h0 := hagree ins (List.mem_cons_self ins rest)
      rw [applyInserts, applyInserts, ← h0]
      cases hk : km1 (jsKeyStr ins.key) with
      | some v =>
          exact ih _ km1 km2 (fun i hi => hagree i (List.mem_cons_of_mem _ hi))
      | none =>
          exact ih arr km1 km2 (fun i hi => hagree i (List.mem_cons_of_mem _ hi))


/-! #### Characterizing `keyIndex` -/

/-- The keys dictionary built by the `keyIndex` fold over `l` with positions
counted from `i`, extending a prior dictionary `d`. -/
def keysAfter {A : Type} (key : A → Option String) :
    List (String × Nat) → List A → Nat → List (String × Nat)
  | d, [], _ => d
  | d, x :: xs, i =>
      if jsKeyTruthy (key x) then
        keysAfter key (SDict.set d (jsKeyStr (key x)) i) xs (i + 1)
      else keysAfter key d xs (i + 1)

/-- The positions of the unkeyed items of `l`, counting from `i`. -/
def unkeyedIdxs {A : Type} (key : A → Option String) : List A → Nat → List Nat
  | [], _ => []
  | x :: xs, i =>
      if jsKeyTruthy (key x) then unkeyedIdxs key xs (i + 1)
      else i :: unkeyedIdxs key xs (i + 1)

/-- The `keyIndex` fold, characterized recursively. -/
theorem keyIndex_fold {A : Type} (key : A → Option String) :
    ∀ (l : List A) (r : KeyIndexRes) (i : Nat),
      (l.foldl
        (fun (acc : KeyIndexRes × Nat) a =>
          let (r, i) := acc
          if jsKeyTruthy (key a) then
            ({ r with keys := SDict.set r.keys (jsKeyStr (key a)) i }, i + 1)
          else
            ({ r with free := r.free ++ [i] }, i + 1))
        (r, i)).1 =
      ⟨keysAfter key r.keys l i, r.free ++ unkeyedIdxs key l i⟩ := by
  intro l
  induction l with
  | nil => intro r i; simp [keysAfter, unkeyedIdxs]
  | cons x xs ih =>
      intro r i
      by_cases hk : jsKeyTruthy (key x) = true
      · simp only [List.foldl_cons, hk, if_true]
        rw [ih]
        simp [keysAfter, unkeyedIdxs, hk]
      · simp only [Bool.not_eq_true] at hk
        simp only [List.foldl_cons, hk, Bool.false_eq_true, if_false]
        rw [ih]
        simp [keysAfter, unkeyedIdxs, hk]

/-- `keyIndex` in terms of the recursive characterizations. -/
theorem keyIndex_eq {A : Type} (key : A → Option String) (l : List A) :
    keyIndex key l = ⟨keysAfter key [] l 0, unkeyedIdxs key l 0⟩ := by
  have h := keyIndex_fold key l ⟨[], []⟩ 0
  simpa [keyIndex] using h

/-- Lookup of the freshly written key in a JS dictionary. -/
theorem SDict.get_set_self (m : List (String × Nat)) (s : String) (v : Nat) :
    SDict.get? (SDict.set m s v) s = some v := by
  induction m with
  | nil => simp [SDict.set, SDict.get?]
  | cons p rest ih =>
      by_cases hp : p.1 = s
      · simp [SDict.set, SDict.get?, List.filter_cons, hp]
      · have hb : (p.1 == s) = false := by simpa using hp
        simp [SDict.set, SDict.get?, List.filter_cons, List.find?_cons, hp, hb]

/-- Lookup of a different key after a JS dictionary write. -/
theorem SDict.get_set_other (m : List (String × Nat)) (s t : String) (v : Nat)
    (hts : t ≠ s) :
    SDict.get? (SDict.set m s v) t = SDict.get? m t := by
  induction m with
  | nil =>
      have hb : (s == t) = false := by
        simp only [beq_eq_false_iff_ne]
        exact fun h => hts h.symm
      simp [SDict.set, SDict.get?, List.find?_cons, hb]
  | cons p rest ih =>
      have hst : (s == t) = false := by
        simp only [beq_eq_false_iff_ne]
        exact fun h => hts h.symm
      by_cases hp : p.1 = s
      · have hbt : (p.1 == t) = false := by
          simp only [beq_eq_false_iff_ne]
          rw [hp]
          exact fun h => hts h.symm
        simpa [SDict.set, SDict.get?, List.filter_cons, List.find?_cons,
          hp, hbt, hst] using ih
      · by_cases hpt : p.1 = t
        · simp [SDict.set, SDict.get?, List.filter_cons, List.find?_cons,
            hp, hpt, hst, hts]
        · have hbt : (p.1 == t) = false := by simpa using hpt
          simpa [SDict.set, SDict.get?, List.filter_cons, List.find?_cons,
            hp, hbt, hst] using ih


/-- `unkeyedOf` drops a keyed head. -/
theorem unkeyedOf_cons_keyed {A : Type} {key : A → Option String} {x : A}
    (xs : List A) (hk : isKeyed key x = true) :
    unkeyedOf key (x :: xs) = unkeyedOf key xs := by
  simp [unkeyedOf, List.filter_cons, hk]

/-- `unkeyedOf` keeps an unkeyed head. -/
theorem unkeyedOf_cons_unkeyed {A : Type} {key : A → Option String} {x : A}
    (xs : List A) (hk : isKeyed key x = false) :
    unkeyedOf key (x :: xs) = x :: unkeyedOf key xs := by
  simp [unkeyedOf, List.filter_cons, hk]

/-- `keyFilter` keeps a head bearing the key. -/
theorem keyFilter_cons_hit {A : Type} {key : A → Option String} {x : A}
    {s : String} (xs : List A) (hk : isKeyed key x = true)
    (hs : jsKeyStr (key x) = s) :
    keyFilter key s (x :: xs) = x :: keyFilter key s xs := by
  simp [keyFilter, List.filter_cons, hk, hs]

/-- `keyFilter` drops an unkeyed head. -/
theorem keyFilter_cons_unkeyed {A : Type} {key : A → Option String} {x : A}
    {s : String} (xs : List A) (hk : isKeyed key x = false) :
    keyFilter key s (x :: xs) = keyFilter key s xs := by
  simp [keyFilter, List.filter_cons, hk]

/-- `keyFilter` drops a head bearing a different key. -/
theorem keyFilter_cons_other {A : Type} {key : A → Option String} {x : A}
    {s : String} (xs : List A) (hs : jsKeyStr (key x) ≠ s) :
    keyFilter key s (x :: xs) = keyFilter key s xs := by
  have hb : (jsKeyStr (key x) == s) = false := by simpa using hs
  simp [keyFilter, List.filter_cons, hb]

/-- A dictionary hit of `keysAfter` names a keyed item of `l` at the looked-up
position, unless the binding was already in the prior dictionary. -/
theorem keysAfter_lookup {A : Type} (key : A → Option String) :
    ∀ (l : List A) (d : List (String × Nat)) (i : Nat) (s : String) (j : Nat),
      SDict.get? (keysAfter key d l i) s = some j →
      (∃ p x, l.get? p = some x ∧ jsKeyTruthy (key x) = true ∧
        jsKeyStr (key x) = s ∧ j = i + p) ∨
      SDict.get? d s = some j := by
  intro l
  induction l with
  | nil => intro d i s j h; exact Or.inr h
  | cons x xs ih =>
      intro d i s j h
      by_cases hk : jsKeyTruthy (key x) = true
      · rw [keysAfter, if_pos hk] at h
        rcases ih _ _ _ _ h with ⟨p, y, hy, hky, hs, hj⟩ | hd
        · exact Or.inl ⟨p + 1, y, hy, hky, hs, by omega⟩
        · by_cases hsx : s = jsKeyStr (key x)
          · subst hsx
            rw [SDict.get_set_self] at hd
            exact Or.inl ⟨0, x, rfl, hk, rfl, by
              have := Option.some.inj hd
              omega⟩
          · rw [SDict.get_set_other _ _ _ _ hsx] at hd
            exact Or.inr hd
      · rw [keysAfter, if_neg hk] at h
        rcases ih _ _ _ _ h with ⟨p, y, hy, hky, hs, hj⟩ | hd
        · exact Or.inl ⟨p + 1, y, hy, hky, hs, by omega⟩
        · exact Or.inr hd

/-- Dictionary writes survive the rest of the `keyIndex` fold. -/
theorem keysAfter_isSome_mono {A : Type} (key : A → Option String) :
    ∀ (l : List A) (d : List (String × Nat)) (i : Nat) (s : String),
      (SDict.get? d s).isSome = true →
      (SDict.get? (keysAfter key d l i) s).isSome = true := by
  intro l
  induction l with
  | nil => intro d i s h; exact h
  | cons x xs ih =>
      intro d i s h
      by_cases hk : jsKeyTruthy (key x) = true
      · rw [keysAfter, if_pos hk]
        refine ih _ _ _ ?_
        by_cases hsx : s = jsKeyStr (key x)
        · subst hsx
          rw [SDict.get_set_self]
          rfl
        · rw [SDict.get_set_other _ _ _ _ hsx]
          exact h
      · rw [keysAfter, if_neg hk]
        exact ih _ _ _ h

/-- Every keyed item of `l` ends up in the `keysAfter` dictionary. -/
theorem keysAfter_mem_isSome {A : Type} (key : A → Option String) :
    ∀ (l : List A) (d : List (String × Nat)) (i : Nat) (x : A), x ∈ l →
      jsKeyTruthy (key x) = true →
      (SDict.get? (keysAfter key d l i) (jsKeyStr (key x))).isSome = true := by
  intro l
  induction l with
  | nil => intro d i x hx; cases hx
  | cons y ys ih =>
      intro d i x hx hkx
      rcases List.mem_cons.mp hx with rfl | hx
      · rw [keysAfter, if_pos hkx]
        refine keysAfter_isSome_mono key ys _ _ _ ?_
        rw [SDict.get_set_self]
        rfl
      · by_cases hk : jsKeyTruthy (key y) = true
        · rw [keysAfter, if_pos hk]
          exact ih _ _ _ hx hkx
        · rw [keysAfter, if_neg hk]
          exact ih _ _ _ hx hkx

/-- `unkeyedIdxs` records one position per unkeyed item. -/
theorem unkeyedIdxs_length {A : Type} (key : A → Option String) :
    ∀ (l : List A) (i : Nat),
      (unkeyedIdxs key l i).length = (unkeyedOf key l).length := by
  intro l
  induction l with
  | nil => intro i; rfl
  | cons x xs ih =>
      intro i
      by_cases hk : jsKeyTruthy (key x) = true
      · rw [unkeyedIdxs, if_pos hk, unkeyedOf_cons_keyed xs hk]
        exact ih (i + 1)
      · rw [unkeyedIdxs, if_neg hk,
          unkeyedOf_cons_unkeyed xs (by simpa using hk)]
        simp [ih (i + 1)]

/-- The recorded unkeyed positions are at least the starting offset. -/
theorem unkeyedIdxs_ge {A : Type} (key : A → Option String) :
    ∀ (l : List A) (i : Nat) (v : Nat), v ∈ unkeyedIdxs key l i → i ≤ v := by
  intro l
  induction l with
  | nil => intro i v h; cases h
  | cons x xs ih =>
      intro i v h
      by_cases hk : jsKeyTruthy (key x) = true
      · rw [unkeyedIdxs, if_pos hk] at h
        have := ih (i + 1) v h
        omega
      · rw [unkeyedIdxs, if_neg hk] at h
        rcases List.mem_cons.mp h with rfl | h
        · exact Nat.le_refl v
        · have := ih (i + 1) v h
          omega

/-- Reading `l` at the `j`-th recorded unkeyed position yields the `j`-th
unkeyed item. -/
theorem unkeyedIdxs_get {A : Type} (key : A → Option String) :
    ∀ (l : List A) (i : Nat) (j : Nat), j < (unkeyedIdxs key l i).length →
      ∃ p x, (unkeyedIdxs key l i).getD j 0 = i + p ∧ l.get? p = some x ∧
        (unkeyedOf key l).get? j = some x := by
  intro l
  induction l with
  | nil => intro i j h; simp [unkeyedIdxs] at h
  | cons x xs ih =>
      intro i j h
      by_cases hk : jsKeyTruthy (key x) = true
      · rw [unkeyedIdxs, if_pos hk] at h ⊢
        rw [unkeyedOf_cons_keyed xs hk]
        obtain ⟨p, y, h1, h2, h3⟩ := ih (i + 1) j h
        exact ⟨p + 1, y, by rw [h1]; omega, h2, h3⟩
      · rw [unkeyedIdxs, if_neg hk] at h ⊢
        rw [unkeyedOf_cons_unkeyed xs (by simpa using hk)]
        cases j with
        | zero => exact ⟨0, x, by simp, rfl, rfl⟩
        | succ j =>
            simp only [List.length_cons, Nat.succ_lt_succ_iff] at h
            obtain ⟨p, y, h1, h2, h3⟩ := ih (i + 1) j h
            refine ⟨p + 1, y, ?_, h2, h3⟩
            have hgd : (i :: unkeyedIdxs key xs (i + 1)).getD (j + 1) 0 =
                (unkeyedIdxs key xs (i + 1)).getD j 0 := rfl
            rw [hgd, h1]
            omega

/-- Exactly `j` unkeyed items of `l` lie before the `j`-th recorded unkeyed
position. -/
theorem unkeyedIdxs_take_count {A : Type} (key : A → Option String) :
    ∀ (l : List A) (i : Nat) (j : Nat), j < (unkeyedIdxs key l i).length →
      (unkeyedOf key (l.take ((unkeyedIdxs key l i).getD j 0 - i))).length
        = j := by
  intro l
  induction l with
  | nil => intro i j h; simp [unkeyedIdxs] at h
  | cons x xs ih =>
      intro i j h
      by_cases hk : jsKeyTruthy (key x) = true
      · rw [unkeyedIdxs, if_pos hk] at h ⊢
        obtain ⟨p, y, h1, _, _⟩ := unkeyedIdxs_get key xs (i + 1) j h
        have hv : (unkeyedIdxs key xs (i + 1)).getD j 0 - i =
            ((unkeyedIdxs key xs (i + 1)).getD j 0 - (i + 1)) + 1 := by
          rw [h1]
          omega
        rw [hv, List.take_succ_cons, unkeyedOf_cons_keyed _ hk]
        exact ih (i + 1) j h
      · rw [unkeyedIdxs, if_neg hk] at h ⊢
        cases j with
        | zero => simp [unkeyedOf]
        | succ j =>
            simp only [List.length_cons, Nat.succ_lt_succ_iff] at h
            obtain ⟨p, y, h1, _, _⟩ := unkeyedIdxs_get key xs (i + 1) j h
            have hgd : (i :: unkeyedIdxs key xs (i + 1)).getD (j + 1) 0 =
                (unkeyedIdxs key xs (i + 1)).getD j 0 := rfl
            have hv : (unkeyedIdxs key xs (i + 1)).getD j 0 - i =
                ((unkeyedIdxs key xs (i + 1)).getD j 0 - (i + 1)) + 1 := by
              rw [h1]
              omega
            rw [hgd, hv, List.take_succ_cons,
              unkeyedOf_cons_unkeyed _ (by simpa using hk)]
            simp only [List.length_cons, ih (i + 1) j h]

/-- The free list exhausts `l` exactly when `l` has no keyed item. -/
theorem unkeyedIdxs_length_eq_iff {A : Type} (key : A → Option String) :
    ∀ (l : List A) (i : Nat),
      (unkeyedIdxs key l i).length = l.length ↔ keysOf key l = [] := by
  intro l
  induction l with
  | nil => intro i; simp [unkeyedIdxs, keysOf]
  | cons x xs ih =>
      intro i
      by_cases hk : jsKeyTruthy (key x) = true
      · rw [unkeyedIdxs, if_pos hk]
        have hlen : (unkeyedIdxs key xs (i + 1)).length ≤ xs.length := by
          clear ih
          induction xs generalizing i with
          | nil => simp [unkeyedIdxs]
          | cons y ys ih2 =>
              by_cases hky : jsKeyTruthy (key y) = true
              · rw [unkeyedIdxs, if_pos hky]
                have := ih2 (i + 1)
                simp only [List.length_cons]
                omega
              · rw [unkeyedIdxs, if_neg hky]
                have := ih2 (i + 1)
                simp only [List.length_cons]
                omega
        constructor
        · intro hlen2
          simp only [List.length_cons] at hlen2
          omega
        · intro hko
          exfalso
          have : jsKeyStr (key x) ∈ keysOf key (x :: xs) := by
            simp [keysOf, List.filterMap_cons, isKeyed, hk]
          rw [hko] at this
          cases this
      · rw [unkeyedIdxs, if_neg hk]
        simp only [List.length_cons, Nat.succ_inj]
        rw [ih (i + 1)]
        have hx : keysOf key (x :: xs) = keysOf key xs := by
          simp [keysOf, List.filterMap_cons, isKeyed, hk]
        rw [hx]


/-! #### Characterizing the two alignment passes of `reorder` -/

/-- The items that the second pass appends: new keyed items (absent from the
old key hash) and the unkeyed items from position `L` on. -/
def appendBSel {A : Type} (key : A → Option String)
    (aKeys : List (String × Nat)) (L : Nat) : List A → Nat → List (Option A)
  | [], _ => []
  | x :: xs, j =>
      (if jsKeyTruthy (key x) then
        if (SDict.get? aKeys (jsKeyStr (key x))).isNone then [some x] else []
      else if L ≤ j then [some x] else []) ++
        appendBSel key aKeys L xs (j + 1)

/-- The second pass is the selection appended to its accumulator. -/
theorem reorderAppendB_eq {A : Type} (key : A → Option String)
    (aKeys : List (String × Nat)) (L : Nat) :
    ∀ (l : List A) (acc : List (Option A)) (j : Nat),
      (l.foldl
        (fun (st : List (Option A) × Nat) newItem =>
          let (acc, j) := st
          if jsKeyTruthy (key newItem) then
            if (SDict.get? aKeys (jsKeyStr (key newItem))).isNone then
              (acc ++ [some newItem], j + 1)
            else (acc, j + 1)
          else if L ≤ j then (acc ++ [some newItem], j + 1)
          else (acc, j + 1))
        (acc, j)).1 = acc ++ appendBSel key aKeys L l j := by
  intro l
  induction l with
  | nil => intro acc j; simp [appendBSel]
  | cons x xs ih =>
      intro acc j
      by_cases hk : jsKeyTruthy (key x) = true
      · by_cases ha : (SDict.get? aKeys (jsKeyStr (key x))).isNone = true
        · simp only [List.foldl_cons, hk, if_true, ha]
          rw [ih]
          simp [appendBSel, hk, ha]
        · simp only [List.foldl_cons, hk, if_true, ha]
          rw [ih]
          simp [appendBSel, hk, ha]
      · simp only [Bool.not_eq_true] at hk
        by_cases hj : L ≤ j
        · simp only [List.foldl_cons, hk, Bool.false_eq_true, if_false, hj,
            if_true]
          rw [ih]
          simp [appendBSel, hk, hj]
        · simp only [List.foldl_cons, hk, Bool.false_eq_true, if_false, hj,
            if_false]
          rw [ih]
          simp [appendBSel, hk, hj]

/-- `reorderAppendB` in terms of the selection. -/
theorem reorderAppendB_sel {A : Type} (key : A → Option String)
    (aKeys : List (String × Nat)) (L : Nat) (l : List A)
    (acc : List (Option A)) :
    reorderAppendB key aKeys L l acc = acc ++ appendBSel key aKeys L l 0 :=
  reorderAppendB_eq key aKeys L l acc 0

/-- The selection holds no `null` entries. -/
theorem appendBSel_countNone {A : Type} (key : A → Option String)
    (aKeys : List (String × Nat)) (L : Nat) :
    ∀ (l : List A) (j : Nat), countNone (appendBSel key aKeys L l j) = 0 := by
  intro l
  induction l with
  | nil => intro j; rfl
  | cons x xs ih =>
      intro j
      rw [appendBSel, countNone_append, ih (j + 1)]
      by_cases hk : jsKeyTruthy (key x) = true
      · by_cases ha : (SDict.get? aKeys (jsKeyStr (key x))).isNone = true
        · simp [hk, ha, countNone]
        · simp [hk, ha, countNone]
      · simp only [Bool.not_eq_true] at hk
        by_cases hj : L ≤ j
        · simp [hk, hj, countNone]
        · simp [hk, hj, countNone]

/-- Every live selected item comes from `l`. -/
theorem appendBSel_mem {A : Type} (key : A → Option String)
    (aKeys : List (String × Nat)) (L : Nat) :
    ∀ (l : List A) (j : Nat) (x : A),
      x ∈ dropNulls (appendBSel key aKeys L l j) → x ∈ l := by
  intro l
  induction l with
  | nil => intro j x h; simp [appendBSel, dropNulls] at h
  | cons y xs ih =>
      intro j x h
      rw [appendBSel, dropNulls_append] at h
      rcases List.mem_append.mp h with h | h
      · have hx : x = y := by
          by_cases hk : jsKeyTruthy (key y) = true
          · by_cases ha : (SDict.get? aKeys (jsKeyStr (key y))).isNone = true
            · simpa [hk, ha, dropNulls] using h
            · simp [hk, ha, dropNulls] at h
          · simp only [Bool.not_eq_true] at hk
            by_cases hj : L ≤ j
            · simpa [hk, hj, dropNulls] using h
            · simp [hk, hj, dropNulls] at h
        exact hx ▸ List.mem_cons_self y xs
      · exact List.mem_cons_of_mem y (ih (j + 1) x h)

/-- A new keyed item (key absent from the old hash) is selected. -/
theorem appendBSel_keyed_mem {A : Type} (key : A → Option String)
    (aKeys : List (String × Nat)) (L : Nat) :
    ∀ (l : List A) (j : Nat) (x : A), x ∈ l → jsKeyTruthy (key x) = true →
      (SDict.get? aKeys (jsKeyStr (key x))).isNone = true →
      x ∈ dropNulls (appendBSel key aKeys L l j) := by
  intro l
  induction l with
  | nil => intro j x hx; cases hx
  | cons y xs ih =>
      intro j x hx hk ha
      rw [appendBSel, dropNulls_append]
      rcases List.mem_cons.mp hx with rfl | hx
      · refine List.mem_append.mpr (Or.inl ?_)
        simp [hk, ha, dropNulls]
      · exact List.mem_append.mpr (Or.inr (ih (j + 1) x hx hk ha))

/-- The live unkeyed items that the second pass appends are the unkeyed items
of `l` from absolute position `L` on. -/
theorem appendBSel_unkeyed {A : Type} (key : A → Option String)
    (aKeys : List (String × Nat)) (L : Nat) :
    ∀ (l : List A) (j : Nat),
      unkeyedOf key (dropNulls (appendBSel key aKeys L l j)) =
        unkeyedOf key (l.drop (L - j)) := by
  intro l
  induction l with
  | nil => intro j; simp [appendBSel, dropNulls]
  | cons x xs ih =>
      intro j
      rw [appendBSel, dropNulls_append, unkeyedOf_append, ih (j + 1)]
      by_cases hj : L ≤ j
      · have hd : L - j = 0 := by omega
        have hd2 : L - (j + 1) = 0 := by omega
        rw [hd, hd2, List.drop_zero, List.drop_zero]
        by_cases hk : jsKeyTruthy (key x) = true
        · rw [unkeyedOf_cons_keyed xs (by simpa [isKeyed] using hk)]
          by_cases ha : (SDict.get? aKeys (jsKeyStr (key x))).isNone = true
          · simp [hk, ha, dropNulls, unkeyedOf, List.filter_cons, isKeyed]
          · simp [hk, ha, dropNulls, unkeyedOf]
        · simp only [Bool.not_eq_true] at hk
          rw [unkeyedOf_cons_unkeyed xs (by simp [isKeyed, hk])]
          simp [hk, hj, dropNulls, unkeyedOf, List.filter_cons, isKeyed]
      · have hd : L - j = (L - (j + 1)) + 1 := by omega
        rw [hd, List.drop_succ_cons]
        by_cases hk : jsKeyTruthy (key x) = true
        · by_cases ha : (SDict.get? aKeys (jsKeyStr (key x))).isNone = true
          · simp [hk, ha, dropNulls, unkeyedOf, List.filter_cons, isKeyed]
          · simp [hk, ha, dropNulls, unkeyedOf]
        · simp only [Bool.not_eq_true] at hk
          simp [hk, hj, dropNulls, unkeyedOf]


/-- `keyIndex`, keys component. -/
theorem keyIndex_keys {A : Type} (key : A → Option String) (l : List A) :
    (keyIndex key l).keys = keysAfter key [] l 0 := by
  rw [keyIndex_eq]

/-- `keyIndex`, free component. -/
theorem keyIndex_free {A : Type} (key : A → Option String) (l : List A) :
    (keyIndex key l).free = unkeyedIdxs key l 0 := by
  rw [keyIndex_eq]

/-- A `keyIndex` dictionary hit names the keyed item at the looked-up
position. -/
theorem keyIndex_lookup {A : Type} (key : A → Option String) (b : List A)
    (s : String) (i : Nat)
    (h : SDict.get? (keyIndex key b).keys s = some i) :
    ∃ x, b.get? i = some x ∧ jsKeyTruthy (key x) = true ∧
      jsKeyStr (key x) = s := by
  rw [keyIndex_keys] at h
  rcases keysAfter_lookup key b [] 0 s i h with ⟨p, x, hx, hk, hs, hj⟩ | hd
  · refine ⟨x, ?_, hk, hs⟩
    have hp : i = p := by omega
    rw [hp]
    exact hx
  · simp [SDict.get?] at hd

/-- Every keyed item of `b` is present in the `keyIndex` dictionary. -/
theorem keyIndex_isSome {A : Type} (key : A → Option String) (b : List A)
    (x : A) (hx : x ∈ b) (hk : jsKeyTruthy (key x) = true) :
    (SDict.get? (keyIndex key b).keys (jsKeyStr (key x))).isSome = true := by
  rw [keyIndex_keys]
  exact keysAfter_mem_isSome key b [] 0 x hx hk

/-- Members of `unkeyedOf` are unkeyed members. -/
theorem mem_unkeyedOf {A : Type} {key : A → Option String} {l : List A}
    {x : A} (h : x ∈ unkeyedOf key l) : x ∈ l ∧ isKeyed key x = false := by
  have h2 := List.mem_filter.mp h
  exact ⟨h2.1, by simpa using h2.2⟩

/-- Under unique keys, a keyed member is the unique bearer of its key. -/
theorem UniqueKeys.bearer {A : Type} {key : A → Option String} {b : List A}
    (hb : UniqueKeys key b) {x : A} (hx : x ∈ b)
    (hk : isKeyed key x = true) :
    keyFilter key (jsKeyStr (key x)) b = [x] :=
  hb.filter_singleton (self_mem_keyFilter hx hk)

/-- One trailing step of the first alignment pass. -/
theorem reorderScanA_snoc {A : Type} (key : A → Option String)
    (bChildren : List A) (bKeys : List (String × Nat)) (bFree : List Nat)
    (as : List A) (y : A) :
    reorderScanA key bChildren bKeys bFree (as ++ [y]) =
      (let st := reorderScanA key bChildren bKeys bFree as
       if jsKeyTruthy (key y) then
        match SDict.get? bKeys (jsKeyStr (key y)) with
        | some itemIndex =>
            { st with
              newChildren := st.newChildren ++ [bChildren.get? itemIndex] }
        | none =>
            { st with newChildren := st.newChildren ++ [none]
                      deletedItems := st.deletedItems + 1 }
       else
        if st.freeIndex < bFree.length then
          { st with
            newChildren :=
              st.newChildren ++ [bChildren.get? (bFree.getD st.freeIndex 0)]
            freeIndex := st.freeIndex + 1 }
        else
          { st with newChildren := st.newChildren ++ [none]
                    deletedItems := st.deletedItems + 1 }) := by
  unfold reorderScanA
  rw [List.foldl_append, List.foldl_cons, List.foldl_nil]

/-- First pass: the free cursor stays within the free list. -/
theorem scanA_freeIndex_le {A : Type} (key : A → Option String) (b : List A)
    (bKeys : List (String × Nat)) (bFree : List Nat) :
    ∀ (as : List A),
      (reorderScanA key b bKeys bFree as).freeIndex ≤ bFree.length := by
  intro as
  induction as using List.reverseRecOn with
  | nil => simp [reorderScanA]
  | append_singleton as y ih =>
      rw [reorderScanA_snoc]
      by_cases hk : jsKeyTruthy (key y) = true
      · cases hbk : SDict.get? bKeys (jsKeyStr (key y)) with
        | some i => simpa [hk, hbk] using ih
        | none => simpa [hk, hbk] using ih
      · by_cases hf :
          (reorderScanA key b bKeys bFree as).freeIndex < bFree.length
        · simp only [Bool.not_eq_true] at hk
          simp only [hk, Bool.false_eq_true, if_false, hf, if_true]
          omega
        · simp only [Bool.not_eq_true] at hk
          simpa [hk, hf] using ih

/-- First pass: one `null` entry per counted deletion. -/
theorem scanA_countNone {A : Type} (key : A → Option String) (b : List A) :
    ∀ (as : List A),
      countNone (reorderScanA key b (keyIndex key b).keys
        (keyIndex key b).free as).newChildren =
      (reorderScanA key b (keyIndex key b).keys
        (keyIndex key b).free as).deletedItems := by
  intro as
  induction as using List.reverseRecOn with
  | nil => simp [reorderScanA, countNone]
  | append_singleton as y ih =>
      rw [reorderScanA_snoc]
      by_cases hk : jsKeyTruthy (key y) = true
      · cases hbk : SDict.get? (keyIndex key b).keys (jsKeyStr (key y)) with
        | some i =>
            obtain ⟨x, hx, _, _⟩ := keyIndex_lookup key b _ i hbk
            simp only [hk, if_true, hbk]
            rw [countNone_append, hx]
            simpa [countNone] using ih
        | none =>
            simp only [hk, if_true, hbk]
            rw [countNone_append]
            simpa [countNone] using ih
      · simp only [Bool.not_eq_true] at hk
        by_cases hf : (reorderScanA key b (keyIndex key b).keys
            (keyIndex key b).free as).freeIndex < (keyIndex key b).free.length
        · have hf2 : (reorderScanA key b (keyIndex key b).keys
              (keyIndex key b).free as).freeIndex <
              (unkeyedIdxs key b 0).length := by
            rw [← keyIndex_free]
            exact hf
          obtain ⟨p, x, h1, h2, h3⟩ := unkeyedIdxs_get key b 0 _ hf2
          simp only [hk, Bool.false_eq_true, if_false, hf, if_true]
          rw [← keyIndex_free] at h1
          rw [countNone_append, h1]
          have hp : (0 : Nat) + p = p := by omega
          rw [hp, h2]
          simpa [countNone] using ih
        · simp only [hk, Bool.false_eq_true, if_false, hf, if_false]
          rw [countNone_append]
          simpa [countNone] using ih


/-- First pass: each step appends to the aligned children. -/
theorem scanA_snoc_append {A : Type} (key : A → Option String) (b : List A)
    (bKeys : List (String × Nat)) (bFree : List Nat) (as : List A) (y : A) :
    ∃ e, (reorderScanA key b bKeys bFree (as ++ [y])).newChildren =
      (reorderScanA key b bKeys bFree as).newChildren ++ e := by
  rw [reorderScanA_snoc]
  by_cases hk : jsKeyTruthy (key y) = true
  · cases hbk : SDict.get? bKeys (jsKeyStr (key y)) with
    | some i => exact ⟨[b.get? i], by simp [hk, hbk]⟩
    | none => exact ⟨[none], by simp [hk, hbk]⟩
  · simp only [Bool.not_eq_true] at hk
    by_cases hf : (reorderScanA key b bKeys bFree as).freeIndex < bFree.length
    · exact ⟨[b.get? (bFree.getD
        (reorderScanA key b bKeys bFree as).freeIndex 0)], by simp [hk, hf]⟩
    · exact ⟨[none], by simp [hk, hf]⟩

/-- First pass: the live aligned entries carry the unkeyed items of `b` in
order, one per consumed free slot. -/
theorem scanA_unkeyed {A : Type} (key : A → Option String) (b : List A) :
    ∀ (as : List A),
      unkeyedOf key (dropNulls (reorderScanA key b (keyIndex key b).keys
        (keyIndex key b).free as).newChildren) =
      (unkeyedOf key b).take (reorderScanA key b (keyIndex key b).keys
        (keyIndex key b).free as).freeIndex := by
  intro as
  induction as using List.reverseRecOn with
  | nil => simp [reorderScanA, dropNulls, unkeyedOf]
  | append_singleton as y ih =>
      rw [reorderScanA_snoc]
      by_cases hk : jsKeyTruthy (key y) = true
      · cases hbk : SDict.get? (keyIndex key b).keys (jsKeyStr (key y)) with
        | some i =>
            obtain ⟨x, hx, hkx, _⟩ := keyIndex_lookup key b _ i hbk
            simp only [hk, if_true, hbk]
            rw [hx, dropNulls_append, unkeyedOf_append]
            have hempty : unkeyedOf key (dropNulls [some x]) = [] := by
              simp [dropNulls, unkeyedOf, List.filter_cons, isKeyed, hkx]
            rw [hempty, List.append_nil]
            exact ih
        | none =>
            simp only [hk, if_true, hbk]
            rw [dropNulls_append, unkeyedOf_append]
            have hempty : unkeyedOf key (dropNulls [(none : Option A)]) = [] :=
              rfl
            rw [hempty, List.append_nil]
            exact ih
      · simp only [Bool.not_eq_true] at hk
        by_cases hf : (reorderScanA key b (keyIndex key b).keys
            (keyIndex key b).free as).freeIndex < (keyIndex key b).free.length
        · have hf2 : (reorderScanA key b (keyIndex key b).keys
              (keyIndex key b).free as).freeIndex <
              (unkeyedIdxs key b 0).length := by
            rw [← keyIndex_free]
            exact hf
          obtain ⟨p, x, h1, h2, h3⟩ := unkeyedIdxs_get key b 0 _ hf2
          rw [← keyIndex_free] at h1
          simp only [hk, Bool.false_eq_true, if_false, hf, if_true]
          rw [h1]
          have hp : (0 : Nat) + p = p := by omega
          rw [hp, h2, dropNulls_append, unkeyedOf_append]
          have hxunk : isKeyed key x = false :=
            (mem_unkeyedOf (List.get?_mem h3)).2
          have hone : unkeyedOf key (dropNulls [some x]) = [x] := by
            simp [dropNulls, unkeyedOf, List.filter_cons, hxunk]
          rw [hone, ih]
          have htake : (unkeyedOf key b).take
              ((reorderScanA key b (keyIndex key b).keys
                (keyIndex key b).free as).freeIndex + 1) =
              (unkeyedOf key b).take
                ((reorderScanA key b (keyIndex key b).keys
                  (keyIndex key b).free as).freeIndex) ++ [x] := by
            have h3e : (unkeyedOf key b)[(reorderScanA key b
                (keyIndex key b).keys (keyIndex key b).free
                  as).freeIndex]? = some x := by
              rw [← List.get?_eq_getElem?]
              exact h3
            rw [List.take_succ, h3e]
            rfl
          rw [htake]
        · simp only [hk, Bool.false_eq_true, if_false, hf, if_false]
          rw [dropNulls_append, unkeyedOf_append]
          have hempty : unkeyedOf key (dropNulls [(none : Option A)]) = [] :=
            rfl
          rw [hempty, List.append_nil]
          exact ih

/-- First pass: every live keyed aligned entry is the unique `b`-bearer of
its key. -/
theorem scanA_keyed {A : Type} {key : A → Option String} {b : List A}
    (hb : UniqueKeys key b) :
    ∀ (as : List A) (x : A),
      x ∈ dropNulls (reorderScanA key b (keyIndex key b).keys
        (keyIndex key b).free as).newChildren →
      isKeyed key x = true → keyFilter key (jsKeyStr (key x)) b = [x] := by
  intro as
  induction as using List.reverseRecOn with
  | nil => intro x h; simp [reorderScanA, dropNulls] at h
  | append_singleton as y ih =>
      intro x h hkx
      rw [reorderScanA_snoc] at h
      by_cases hk : jsKeyTruthy (key y) = true
      · cases hbk : SDict.get? (keyIndex key b).keys (jsKeyStr (key y)) with
        | some i =>
            obtain ⟨z, hz, hkz, _⟩ := keyIndex_lookup key b _ i hbk
            simp only [hk, if_true, hbk] at h
            rw [hz, dropNulls_append] at h
            rcases List.mem_append.mp h with h | h
            · exact ih x h hkx
            · have hxz : x = z := by simpa [dropNulls] using h
              subst hxz
              exact hb.bearer (List.get?_mem hz) hkx
        | none =>
            simp only [hk, if_true, hbk] at h
            rw [dropNulls_append] at h
            rcases List.mem_append.mp h with h | h
            · exact ih x h hkx
            · simp [dropNulls] at h
      · simp only [Bool.not_eq_true] at hk
        by_cases hf : (reorderScanA key b (keyIndex key b).keys
            (keyIndex key b).free as).freeIndex < (keyIndex key b).free.length
        · have hf2 : (reorderScanA key b (keyIndex key b).keys
              (keyIndex key b).free as).freeIndex <
              (unkeyedIdxs key b 0).length := by
            rw [← keyIndex_free]
            exact hf
          obtain ⟨p, z, h1, h2, h3⟩ := unkeyedIdxs_get key b 0 _ hf2
          rw [← keyIndex_free] at h1
          simp only [hk, Bool.false_eq_true, if_false, hf, if_true] at h
          rw [h1] at h
          have hp : (0 : Nat) + p = p := by omega
          rw [hp, h2, dropNulls_append] at h
          rcases List.mem_append.mp h with h | h
          · exact ih x h hkx
          · have hxz : x = z := by simpa [dropNulls] using h
            subst hxz
            have hzunk : isKeyed key x = false :=
              (mem_unkeyedOf (List.get?_mem h3)).2
            rw [hzunk] at hkx
            cases hkx
        · simp only [hk, Bool.false_eq_true, if_false, hf, if_false] at h
          rw [dropNulls_append] at h
          rcases List.mem_append.mp h with h | h
          · exact ih x h hkx
          · simp [dropNulls] at h

/-- First pass: the keyed items of the old list that hit the new key hash
have their `b`-side bearers placed among the live aligned entries. -/
theorem scanA_mem {A : Type} (key : A → Option String) (b : List A) :
    ∀ (as : List A) (y : A), y ∈ as → jsKeyTruthy (key y) = true →
      ∀ i, SDict.get? (keyIndex key b).keys (jsKeyStr (key y)) = some i →
      ∀ x, b.get? i = some x →
      x ∈ dropNulls (reorderScanA key b (keyIndex key b).keys
        (keyIndex key b).free as).newChildren := by
  intro as
  induction as using List.reverseRecOn with
  | nil => intro y hy; cases hy
  | append_singleton as w ih =>
      intro y hy hky i hi x hx
      rcases List.mem_append.mp hy with hy | hy
      · obtain ⟨e, he⟩ := scanA_snoc_append key b (keyIndex key b).keys
          (keyIndex key b).free as w
        rw [he, dropNulls_append]
        exact List.mem_append.mpr (Or.inl (ih y hy hky i hi x hx))
      · have hyw : y = w := by simpa using hy
        subst hyw
        rw [reorderScanA_snoc]
        simp only [hky, if_true, hi]
        rw [hx, dropNulls_append]
        refine List.mem_append.mpr (Or.inr ?_)
        simp [dropNulls]


/-- The aligned children built by the two passes of `reorder`: their live
unkeyed items are exactly `b`\'s in order, their `null` count is the deletion
count, every live keyed entry is the unique `b`-bearer of its key, and every
key of `b` has a bearer among the live entries. -/
theorem aligned_props {A : Type} (key : A → Option String) (a b : List A)
    (hb : UniqueKeys key b) (scan : ReorderScan A) (L : Nat)
    (aligned : List (Option A))
    (hscan : scan = reorderScanA key b (keyIndex key b).keys
      (keyIndex key b).free a)
    (hL : L = if (keyIndex key b).free.length ≤ scan.freeIndex then b.length
      else (keyIndex key b).free.getD scan.freeIndex 0)
    (haligned : aligned =
      reorderAppendB key (keyIndex key a).keys L b scan.newChildren) :
    unkeyedOf key (dropNulls aligned) = unkeyedOf key b ∧
    countNone aligned = scan.deletedItems ∧
    (∀ x ∈ dropNulls aligned, isKeyed key x = true →
      keyFilter key (jsKeyStr (key x)) b = [x]) ∧
    (∀ s, keyFilter key s b ≠ [] → ∃ x, x ∈ dropNulls aligned ∧
      isKeyed key x = true ∧ jsKeyStr (key x) = s) := by
  have hsel : aligned = scan.newChildren ++
      appendBSel key (keyIndex key a).keys L b 0 := by
    rw [haligned, reorderAppendB_sel]
  refine ⟨?_, ?_, ?_, ?_⟩
  · -- live unkeyed items
    rw [hsel, dropNulls_append, unkeyedOf_append, hscan, scanA_unkeyed,
      appendBSel_unkeyed]
    rw [Nat.sub_zero]
    by_cases hex : (keyIndex key b).free.length ≤
        (reorderScanA key b (keyIndex key b).keys
          (keyIndex key b).free a).freeIndex
    · have hLb : L = b.length := by
        rw [hL, hscan, if_pos hex]
      rw [hLb, List.drop_length]
      have hlen : (unkeyedOf key b).length ≤
          (reorderScanA key b (keyIndex key b).keys
            (keyIndex key b).free a).freeIndex := by
        have h1 : (keyIndex key b).free.length = (unkeyedOf key b).length := by
          rw [keyIndex_free]
          exact unkeyedIdxs_length key b 0
        omega
      rw [List.take_of_length_le hlen]
      simp [unkeyedOf, dropNulls]
    · have hfi : (reorderScanA key b (keyIndex key b).keys
          (keyIndex key b).free a).freeIndex <
          (unkeyedIdxs key b 0).length := by
        rw [← keyIndex_free]
        omega
      have hLv : L = (unkeyedIdxs key b 0).getD
          ((reorderScanA key b (keyIndex key b).keys
            (keyIndex key b).free a).freeIndex) 0 := by
        rw [hL, hscan, if_neg hex, keyIndex_free]
      have hcount := unkeyedIdxs_take_count key b 0 _ hfi
      rw [Nat.sub_zero] at hcount
      rw [← hLv] at hcount
      have hsplit : unkeyedOf key b =
          unkeyedOf key (b.take L) ++ unkeyedOf key (b.drop L) := by
        rw [← unkeyedOf_append, List.take_append_drop]
      rw [hsplit]
      rw [← hcount, List.take_left]
  · -- null count
    rw [hsel, countNone_append, appendBSel_countNone, hscan, scanA_countNone]
    omega
  · -- keyed entries are bearers
    intro x hx hkx
    rw [hsel, dropNulls_append] at hx
    rcases List.mem_append.mp hx with hx | hx
    · rw [hscan] at hx
      exact scanA_keyed hb a x hx hkx
    · exact hb.bearer (appendBSel_mem key (keyIndex key a).keys L b 0 x hx) hkx
  · -- every key of b has a live bearer
    intro s hs
    obtain ⟨x0, hx0⟩ := List.exists_mem_of_ne_nil _ hs
    obtain ⟨hx0b, hk0, hs0⟩ := mem_keyFilter.mp hx0
    cases hak : SDict.get? (keyIndex key a).keys s with
    | none =>
        refine ⟨x0, ?_, hk0, hs0⟩
        rw [hsel, dropNulls_append]
        refine List.mem_append.mpr (Or.inr ?_)
        refine appendBSel_keyed_mem key (keyIndex key a).keys L b 0 x0 hx0b
          hk0 ?_
        rw [hs0, hak]
        rfl
    | some ia =>
        have hak2 : SDict.get? (keysAfter key [] a 0) s = some ia := by
          rw [← keyIndex_keys]
          exact hak
        rcases keysAfter_lookup key a [] 0 s ia hak2 with
          ⟨p, y, hy, hky, hsy, _⟩ | hd
        · have hbi : (SDict.get? (keyIndex key b).keys s).isSome = true := by
            have := keyIndex_isSome key b x0 hx0b hk0
            rw [hs0] at this
            exact this
          obtain ⟨i, hi⟩ := Option.isSome_iff_exists.mp hbi
          obtain ⟨z, hz, hkz, hsz⟩ := keyIndex_lookup key b s i hi
          refine ⟨z, ?_, hkz, hsz⟩
          rw [hsel, dropNulls_append]
          refine List.mem_append.mpr (Or.inl ?_)
          rw [hscan]
          refine scanA_mem key b a y (List.get?_mem hy) hky i ?_ z hz
          rw [hsy]
          exact hi
        · simp [SDict.get?] at hd


/-! #### Toolbox for the move-simulation invariant -/

/-- `dropNulls` membership. -/
theorem mem_dropNulls {A : Type} {l : List (Option A)} {x : A} :
    x ∈ dropNulls l ↔ some x ∈ l := by
  simp [dropNulls, List.mem_filterMap]

/-- A list decomposes at a successfully read position. -/
theorem drop_eq_cons_of_get {A : Type} :
    ∀ (l : List A) (i : Nat) (v : A), l.get? i = some v →
      l.drop i = v :: l.drop (i + 1) := by
  intro l
  induction l with
  | nil => intro i v h; cases i <;> simp [List.get?] at h
  | cons x xs ih =>
      intro i v h
      cases i with
      | zero =>
          simp only [List.get?] at h
          rw [Option.some.injEq] at h
          subst h
          rfl
      | succ i =>
          simp only [List.get?] at h
          rw [List.drop_succ_cons, List.drop_succ_cons, ih i v h]

/-- A successful read is in bounds. -/
theorem get_lt_length {A : Type} {l : List A} {i : Nat} {v : A}
    (h : l.get? i = some v) : i < l.length := by
  rcases List.get?_eq_some.mp h with ⟨hlt, _⟩
  exact hlt

/-- Erasing at a position leaves the prefix before it unchanged. -/
theorem take_eraseIdx_self {A : Type} (l : List A) (i : Nat)
    (h : i ≤ l.length) : (l.eraseIdx i).take i = l.take i := by
  rw [eraseIdx_eq_take_drop, List.take_append_eq_append_take]
  have h1 : (l.take i).length = i := by
    rw [List.length_take]
    omega
  rw [h1, Nat.sub_self, List.take_zero, List.append_nil, List.take_take]
  simp

/-- Erasing at a position shifts the suffix after it. -/
theorem drop_eraseIdx_self {A : Type} (l : List A) (i : Nat)
    (h : i ≤ l.length) : (l.eraseIdx i).drop i = l.drop (i + 1) := by
  rw [eraseIdx_eq_take_drop, List.drop_append_eq_append_drop]
  have h1 : (l.take i).length = i := by
    rw [List.length_take]
    omega
  rw [h1, Nat.sub_self, List.drop_zero,
    List.drop_eq_nil_of_le (by rw [h1]), List.nil_append]

/-- Length bounds of `eraseIdx`. -/
theorem length_eraseIdx_bounds {A : Type} (l : List A) (i : Nat) :
    l.length - 1 ≤ (l.eraseIdx i).length ∧
      (l.eraseIdx i).length ≤ l.length := by
  rw [eraseIdx_eq_take_drop, List.length_append, List.length_take,
    List.length_drop]
  omega

/-- Exact length of an in-bounds `eraseIdx`. -/
theorem length_eraseIdx_lt {A : Type} (l : List A) (i : Nat)
    (h : i < l.length) : (l.eraseIdx i).length = l.length - 1 := by
  rw [eraseIdx_eq_take_drop, List.length_append, List.length_take,
    List.length_drop]
  omega

/-- The live entries and the `null` entries partition the length. -/
theorem dropNulls_length {A : Type} (l : List (Option A)) :
    (dropNulls l).length + countNone l = l.length := by
  induction l with
  | nil => rfl
  | cons x xs ih =>
      cases x with
      | none =>
          rw [dropNulls_cons_none]
          have hc : countNone (none :: xs) = countNone xs + 1 := by
            simp [countNone, List.filter_cons]
          rw [hc, List.length_cons]
          omega
      | some v =>
          rw [dropNulls_cons_some]
          have hc : countNone (some v :: xs) = countNone xs := by
            simp [countNone, List.filter_cons]
          rw [hc, List.length_cons, List.length_cons]
          omega

/-- Replaying removes only deletes entries. -/
theorem applyRemoves_sublist {A : Type} :
    ∀ (R : List MoveRemove) (arr : List (Option A))
      (km : List (String × Option A)),
      ((applyRemoves R arr km).1).Sublist arr := by
  intro R
  induction R with
  | nil => intro arr km; exact List.Sublist.refl arr
  | cons r rest ih =>
      intro arr km
      rw [applyRemoves]
      exact List.Sublist.trans (ih _ _) (List.eraseIdx_sublist arr r.fromIdx)

/-- Each remove deletes at most one entry. -/
theorem applyRemoves_length_ge {A : Type} :
    ∀ (R : List MoveRemove) (arr : List (Option A))
      (km : List (String × Option A)),
      arr.length ≤ (applyRemoves R arr km).1.length + R.length := by
  intro R
  induction R with
  | nil => intro arr km; simp [applyRemoves]
  | cons r rest ih =>
      intro arr km
      rw [applyRemoves]
      have h1 := ih (arr.eraseIdx r.fromIdx)
      have hb2 := (length_eraseIdx_bounds arr r.fromIdx).1
      simp only [List.length_cons]
      exact Nat.le_trans (show arr.length ≤
          (arr.eraseIdx r.fromIdx).length + 1 from by omega)
        (Nat.le_trans (Nat.add_le_add_right (h1 _) 1)
          (Nat.le_of_eq (Nat.add_assoc _ _ _)))

/-- A single remove, unfolded. -/
theorem applyRemoves_one {A : Type} (r : MoveRemove) (arr : List (Option A))
    (km : List (String × Option A)) :
    applyRemoves [r] arr km =
      (arr.eraseIdx r.fromIdx,
        if jsKeyTruthy r.key then
          km.filter (fun p => p.1 ≠ jsKeyStr r.key) ++
            [(jsKeyStr r.key,
              match arr.get? r.fromIdx with
              | some v => v
              | none => none)]
        else km) := rfl

/-- Under unique keys, the bearer at position `k` does not occur earlier. -/
theorem bearer_take_nil {A : Type} {key : A → Option String} {b : List A}
    (hb : UniqueKeys key b) {k : Nat} {wanted : A}
    (hw : b.get? k = some wanted) (hkw : isKeyed key wanted = true) :
    keyFilter key (jsKeyStr (key wanted)) (b.take k) = [] := by
  by_contra hne
  have hlen1 : 0 < (keyFilter key (jsKeyStr (key wanted)) (b.take k)).length :=
    List.length_pos.mpr hne
  have hsplit : keyFilter key (jsKeyStr (key wanted)) b =
      keyFilter key (jsKeyStr (key wanted)) (b.take k) ++
      keyFilter key (jsKeyStr (key wanted)) (b.drop k) := by
    rw [← keyFilter_append, List.take_append_drop]
  have hdrop : b.drop k = wanted :: b.drop (k + 1) :=
    drop_eq_cons_of_get b k wanted hw
  have hcons : keyFilter key (jsKeyStr (key wanted)) (b.drop k) =
      wanted :: keyFilter key (jsKeyStr (key wanted)) (b.drop (k + 1)) := by
    rw [hdrop, keyFilter_cons_hit _ hkw rfl]
  have hle := hb.filter_len (jsKeyStr (key wanted))
  rw [hsplit, List.length_append, hcons, List.length_cons] at hle
  omega

/-- Under unique keys, a key with a bearer resolves in the ideal key map. -/
theorem kmIdeal_isSome {A : Type} {key : A → Option String} {b : List A}
    (hb : UniqueKeys key b) {s : String} (h : keyFilter key s b ≠ []) :
    (kmIdeal key b s).isSome = true := by
  obtain ⟨x, hx⟩ := List.exists_mem_of_ne_nil _ h
  simp [kmIdeal, hb.filter_singleton hx]

/-- A key borne within a prefix is borne in the whole list. -/
theorem keyFilter_take_ne {A : Type} {key : A → Option String} {l : List A}
    {s : String} {k : Nat} (h : keyFilter key s (l.take k) ≠ []) :
    keyFilter key s l ≠ [] := by
  intro h0
  apply h
  have hsub : (keyFilter key s (l.take k)).Sublist (keyFilter key s l) :=
    keyFilter_sublist key s (List.take_sublist k l)
  rw [h0] at hsub
  exact List.sublist_nil.mp hsub

/-- Inserting at the length appends. -/
theorem insertIdx_self_length {A : Type} :
    ∀ (l : List A) (a : A), l.insertIdx l.length a = l ++ [a] := by
  intro l
  induction l with
  | nil => intro a; rfl
  | cons x xs ih =>
      intro a
      simp only [List.length_cons, List.insertIdx_succ_cons, ih,
        List.cons_append]

/-- A successful read splits `take` of the successor. -/
theorem take_succ_of_get {A : Type} {l : List A} {k : Nat} {v : A}
    (h : l.get? k = some v) : l.take (k + 1) = l.take k ++ [v] := by
  rw [List.take_succ]
  have he : l[k]? = some v := by
    rw [← List.get?_eq_getElem?]
    exact h
  rw [he]
  rfl


/-- Invariant of the move-simulation pass of `reorder`: `st` is the state
after consuming the first `k` wanted items of `b`, over the initial aligned
children `aligned`. It ties the evolving `simulate` array to a replay of the
recorded removes, the recorded inserts to a rebuild of the consumed prefix of
`b` against the ideal key map, and tracks where each key of `b` lives. -/
structure SimInv {A : Type} (key : A → Option String) (b : List A)
    (aligned : List (Option A)) (st : SimState A) (k : Nat) : Prop where
  w1 : st.simulateIndex ≤ st.simulate.length
  w2 : ∀ e ∈ st.simulate.take st.simulateIndex, e ≠ none
  r0 : (applyRemoves st.removes aligned []).1 = st.simulate
  rk : ∀ s x, kmFind (applyRemoves st.removes aligned []).2 s = some x →
    ∃ xa, x = some xa ∧ keyFilter key s b = [xa]
  u1 : unkeyedOf key (dropNulls (st.simulate.drop st.simulateIndex)) =
    unkeyedOf key (b.drop k)
  k1 : ∀ x ∈ dropNulls st.simulate, isKeyed key x = true →
    keyFilter key (jsKeyStr (key x)) b = [x]
  kb : ∀ s, keyFilter key s b ≠ [] →
    (kmFind (applyRemoves st.removes aligned []).2 s).isSome = true ∨
    ∃ x, x ∈ dropNulls st.simulate ∧ isKeyed key x = true ∧
      jsKeyStr (key x) = s
  p1 : applyInserts st.inserts (st.simulate.take st.simulateIndex)
    (kmIdeal key b) = (b.take k).map some
  p2 : ∀ i ins, st.inserts.get? i = some ins →
    ins.toIdx ≤ st.simulateIndex + i
  p3 : ∀ ins ∈ st.inserts, jsKeyTruthy ins.key = true ∧
    keyFilter key (jsKeyStr ins.key) (b.take k) ≠ []
  p5 : ∀ ins ∈ st.inserts,
    (kmFind (applyRemoves st.removes aligned []).2
      (jsKeyStr ins.key)).isSome = true ∨
    keyFilter key (jsKeyStr ins.key)
      (dropNulls (st.simulate.drop st.simulateIndex)) ≠ []
  kd : k ≤ b.length

/-- Splicing away a `null` placeholder at the cursor preserves the
invariant. -/
theorem SimInv.spliceNull {A : Type} {key : A → Option String} {b : List A}
    {aligned : List (Option A)} {st : SimState A} {k : Nat}
    (inv : SimInv key b aligned st k)
    (hc : st.simulate.get? st.simulateIndex = some none) :
    SimInv key b aligned (spliceRemove st none) k := by
  have hlt : st.simulateIndex < st.simulate.length := get_lt_length hc
  have hle : st.simulateIndex ≤ st.simulate.length := Nat.le_of_lt hlt
  have hsuf : st.simulate.drop st.simulateIndex =
      none :: st.simulate.drop (st.simulateIndex + 1) :=
    drop_eq_cons_of_get _ _ _ hc
  have htake : (st.simulate.eraseIdx st.simulateIndex).take st.simulateIndex =
      st.simulate.take st.simulateIndex :=
    take_eraseIdx_self _ _ hle
  have hdrop : (st.simulate.eraseIdx st.simulateIndex).drop st.simulateIndex =
      st.simulate.drop (st.simulateIndex + 1) :=
    drop_eraseIdx_self _ _ hle
  have hdn : dropNulls (st.simulate.eraseIdx st.simulateIndex) =
      dropNulls st.simulate := by
    conv_rhs => rw [← List.take_append_drop st.simulateIndex st.simulate]
    rw [eraseIdx_eq_take_drop, dropNulls_append, dropNulls_append, hsuf,
      dropNulls_cons_none]
  have hrep : applyRemoves (st.removes ++ [⟨st.simulateIndex, none⟩])
      aligned [] =
      (st.simulate.eraseIdx st.simulateIndex,
        (applyRemoves st.removes aligned []).2) := by
    rw [applyRemoves_append, applyRemoves_one]
    simp only [jsKeyTruthy, Bool.false_eq_true, if_false]
    rw [inv.r0]
  refine ⟨?_, ?_, ?_, ?_, ?_, ?_, ?_, ?_, ?_, ?_, ?_, inv.kd⟩
  · -- w1
    show st.simulateIndex ≤ (st.simulate.eraseIdx st.simulateIndex).length
    rw [length_eraseIdx_lt _ _ hlt]
    omega
  · -- w2
    show ∀ e ∈ (st.simulate.eraseIdx st.simulateIndex).take st.simulateIndex,
      e ≠ none
    rw [htake]
    exact inv.w2
  · -- r0
    show (applyRemoves (st.removes ++ [⟨st.simulateIndex, none⟩])
      aligned []).1 = st.simulate.eraseIdx st.simulateIndex
    rw [hrep]
  · -- rk
    intro s x h
    refine inv.rk s x ?_
    show kmFind (applyRemoves st.removes aligned []).2 s = some x
    rw [← show (applyRemoves (st.removes ++ [⟨st.simulateIndex, none⟩])
      aligned []).2 = (applyRemoves st.removes aligned []).2 from by
        rw [hrep]]
    exact h
  · -- u1
    show unkeyedOf key (dropNulls ((st.simulate.eraseIdx
      st.simulateIndex).drop st.simulateIndex)) = unkeyedOf key (b.drop k)
    rw [hdrop]
    have := inv.u1
    rw [hsuf, dropNulls_cons_none] at this
    exact this
  · -- k1
    intro x hx hkx
    refine inv.k1 x ?_ hkx
    rw [← hdn]
    exact hx
  · -- kb
    intro s hs
    rcases inv.kb s hs with h | ⟨x, hx, hkx, hsx⟩
    · refine Or.inl ?_
      rw [show (spliceRemove st none).removes =
        st.removes ++ [⟨st.simulateIndex, none⟩] from rfl,
        show (applyRemoves (st.removes ++ [⟨st.simulateIndex, none⟩])
        aligned []).2 = (applyRemoves st.removes aligned []).2 from by
          rw [hrep]]
      exact h
    · refine Or.inr ⟨x, ?_, hkx, hsx⟩
      rw [show (spliceRemove st none).simulate =
        st.simulate.eraseIdx st.simulateIndex from rfl, hdn]
      exact hx
  · -- p1
    show applyInserts st.inserts ((st.simulate.eraseIdx
      st.simulateIndex).take st.simulateIndex) (kmIdeal key b) =
      (b.take k).map some
    rw [htake]
    exact inv.p1
  · -- p2
    exact inv.p2
  · -- p3
    exact inv.p3
  · -- p5
    intro ins hins
    rcases inv.p5 ins hins with h | h
    · refine Or.inl ?_
      rw [show (spliceRemove st none).removes =
        st.removes ++ [⟨st.simulateIndex, none⟩] from rfl,
        show (applyRemoves (st.removes ++ [⟨st.simulateIndex, none⟩])
        aligned []).2 = (applyRemoves st.removes aligned []).2 from by
          rw [hrep]]
      exact h
    · refine Or.inr ?_
      rw [show (spliceRemove st none).simulate =
        st.simulate.eraseIdx st.simulateIndex from rfl,
        show (spliceRemove st none).simulateIndex = st.simulateIndex from rfl,
        hdrop]
      rw [hsuf, dropNulls_cons_none] at h
      exact h


/-- Splicing away a keyed item at the cursor preserves the invariant and
remembers the item under its key. -/
theorem SimInv.spliceKeyed {A : Type} {key : A → Option String} {b : List A}
    {aligned : List (Option A)} {st : SimState A} {k : Nat}
    (inv : SimInv key b aligned st k) (si : A)
    (hc : st.simulate.get? st.simulateIndex = some (some si))
    (hk : jsKeyTruthy (key si) = true) :
    SimInv key b aligned (spliceRemove st (key si)) k := by
  have hlt : st.simulateIndex < st.simulate.length := get_lt_length hc
  have hle : st.simulateIndex ≤ st.simulate.length := Nat.le_of_lt hlt
  have hsuf : st.simulate.drop st.simulateIndex =
      some si :: st.simulate.drop (st.simulateIndex + 1) :=
    drop_eq_cons_of_get _ _ _ hc
  have htake : (st.simulate.eraseIdx st.simulateIndex).take st.simulateIndex =
      st.simulate.take st.simulateIndex :=
    take_eraseIdx_self _ _ hle
  have hdrop : (st.simulate.eraseIdx st.simulateIndex).drop st.simulateIndex =
      st.simulate.drop (st.simulateIndex + 1) :=
    drop_eraseIdx_self _ _ hle
  have hsimem : si ∈ dropNulls st.simulate :=
    mem_dropNulls.mpr (List.get?_mem hc)
  have hbear : keyFilter key (jsKeyStr (key si)) b = [si] :=
    inv.k1 si hsimem hk
  have hdnOld : dropNulls st.simulate =
      dropNulls (st.simulate.take st.simulateIndex) ++
        si :: dropNulls (st.simulate.drop (st.simulateIndex + 1)) := by
    conv_lhs => rw [← List.take_append_drop st.simulateIndex st.simulate]
    rw [dropNulls_append, hsuf, dropNulls_cons_some]
  have hdnNew : dropNulls (st.simulate.eraseIdx st.simulateIndex) =
      dropNulls (st.simulate.take st.simulateIndex) ++
        dropNulls (st.simulate.drop (st.simulateIndex + 1)) := by
    rw [eraseIdx_eq_take_drop, dropNulls_append]
  have hrep : applyRemoves
      (st.removes ++ [(⟨st.simulateIndex, key si⟩ : MoveRemove)])
      aligned [] =
      (st.simulate.eraseIdx st.simulateIndex,
        (applyRemoves st.removes aligned []).2.filter
          (fun p => p.1 ≠ jsKeyStr (key si)) ++
          [(jsKeyStr (key si), some si)]) := by
    rw [applyRemoves_append, applyRemoves_one]
    rw [show ((⟨st.simulateIndex, key si⟩ : MoveRemove)).key = key si from rfl,
      show ((⟨st.simulateIndex, key si⟩ : MoveRemove)).fromIdx =
        st.simulateIndex from rfl]
    rw [if_pos hk, inv.r0, hc]
  have hrm : (spliceRemove st (key si)).removes =
      st.removes ++ [(⟨st.simulateIndex, key si⟩ : MoveRemove)] := rfl
  have hkmNew : (applyRemoves (spliceRemove st (key si)).removes
      aligned []).2 =
      (applyRemoves st.removes aligned []).2.filter
        (fun p => p.1 ≠ jsKeyStr (key si)) ++
        [(jsKeyStr (key si), some si)] := by
    rw [hrm, hrep]
  refine ⟨?_, ?_, ?_, ?_, ?_, ?_, ?_, ?_, ?_, ?_, ?_, inv.kd⟩
  · -- w1
    show st.simulateIndex ≤ (st.simulate.eraseIdx st.simulateIndex).length
    rw [length_eraseIdx_lt _ _ hlt]
    omega
  · -- w2
    show ∀ e ∈ (st.simulate.eraseIdx st.simulateIndex).take st.simulateIndex,
      e ≠ none
    rw [htake]
    exact inv.w2
  · -- r0
    show (applyRemoves (spliceRemove st (key si)).removes aligned []).1 =
      st.simulate.eraseIdx st.simulateIndex
    rw [hrm, hrep]
  · -- rk
    intro s x h
    rw [hkmNew] at h
    by_cases hss : s = jsKeyStr (key si)
    · subst hss
      rw [kmFind_set_self] at h
      exact ⟨si, (Option.some.inj h).symm, hbear⟩
    · rw [kmFind_set_other _ _ _ _ hss] at h
      exact inv.rk s x h
  · -- u1
    show unkeyedOf key (dropNulls ((st.simulate.eraseIdx
      st.simulateIndex).drop st.simulateIndex)) = unkeyedOf key (b.drop k)
    rw [hdrop]
    have h0 := inv.u1
    rw [hsuf, dropNulls_cons_some, unkeyedOf_cons_keyed _ hk] at h0
    exact h0
  · -- k1
    intro x hx hkx
    refine inv.k1 x ?_ hkx
    rw [show (spliceRemove st (key si)).simulate =
      st.simulate.eraseIdx st.simulateIndex from rfl, hdnNew] at hx
    rw [hdnOld]
    rcases List.mem_append.mp hx with hx | hx
    · exact List.mem_append.mpr (Or.inl hx)
    · exact List.mem_append.mpr (Or.inr (List.mem_cons_of_mem si hx))
  · -- kb
    intro s hs
    by_cases hss : s = jsKeyStr (key si)
    · refine Or.inl ?_
      rw [hkmNew, hss, kmFind_set_self]
      rfl
    · rcases inv.kb s hs with h | ⟨x, hx, hkx, hsx⟩
      · refine Or.inl ?_
        rw [hkmNew, kmFind_set_other _ _ _ _ hss]
        exact h
      · have hxsi : x ≠ si := by
          intro hxe
          apply hss
          rw [← hsx, hxe]
        refine Or.inr ⟨x, ?_, hkx, hsx⟩
        rw [show (spliceRemove st (key si)).simulate =
          st.simulate.eraseIdx st.simulateIndex from rfl, hdnNew]
        rw [hdnOld] at hx
        rcases List.mem_append.mp hx with hx | hx
        · exact List.mem_append.mpr (Or.inl hx)
        · rcases List.mem_cons.mp hx with hx | hx
          · exact absurd hx hxsi
          · exact List.mem_append.mpr (Or.inr hx)
  · -- p1
    show applyInserts (spliceRemove st (key si)).inserts
      ((st.simulate.eraseIdx st.simulateIndex).take st.simulateIndex)
      (kmIdeal key b) = (b.take k).map some
    rw [htake]
    exact inv.p1
  · -- p2
    exact inv.p2
  · -- p3
    exact inv.p3
  · -- p5
    intro ins hins
    by_cases hss : jsKeyStr ins.key = jsKeyStr (key si)
    · refine Or.inl ?_
      rw [hkmNew, hss, kmFind_set_self]
      rfl
    · rcases inv.p5 ins hins with h | h
      · refine Or.inl ?_
        rw [hkmNew, kmFind_set_other _ _ _ _ hss]
        exact h
      · refine Or.inr ?_
        rw [show (spliceRemove st (key si)).simulate =
          st.simulate.eraseIdx st.simulateIndex from rfl,
          show (spliceRemove st (key si)).simulateIndex =
            st.simulateIndex from rfl, hdrop]
        rw [hsuf, dropNulls_cons_some,
          keyFilter_cons_other _ (fun he => hss he.symm)] at h
        exact h


/-- Every recorded insert key resolves in the ideal key map. -/
theorem SimInv.resolvable {A : Type} {key : A → Option String} {b : List A}
    {aligned : List (Option A)} {st : SimState A} {k : Nat}
    (inv : SimInv key b aligned st k) (hb : UniqueKeys key b) :
    ∀ ins ∈ st.inserts, (kmIdeal key b (jsKeyStr ins.key)).isSome = true :=
  fun ins hins => kmIdeal_isSome hb (keyFilter_take_ne (inv.p3 ins hins).2)

/-- The cursor position plus the recorded inserts account for the consumed
prefix of `b`. -/
theorem SimInv.idx_len {A : Type} {key : A → Option String} {b : List A}
    {aligned : List (Option A)} {st : SimState A} {k : Nat}
    (inv : SimInv key b aligned st k) (hb : UniqueKeys key b) :
    st.simulateIndex + st.inserts.length = k := by
  have h := congrArg List.length inv.p1
  rw [applyInserts_length _ _ _ (inv.resolvable hb), List.length_map,
    List.length_take, List.length_take] at h
  have h1 := inv.w1
  have h2 := inv.kd
  omega

/-- The insert positions in `get` form against the prefix. -/
theorem SimInv.p2get {A : Type} {key : A → Option String} {b : List A}
    {aligned : List (Option A)} {st : SimState A} {k : Nat}
    (inv : SimInv key b aligned st k) :
    ∀ i (h : i < st.inserts.length), (st.inserts.get ⟨i, h⟩).toIdx ≤
      (st.simulate.take st.simulateIndex).length + i := by
  intro i h
  have h0 := inv.p2 i _ (List.get?_eq_get h)
  rw [List.length_take]
  have h1 := inv.w1
  omega

/-- Recording an insert for the keyed wanted item `b[k]` preserves the
invariant, advancing the consumed prefix. -/
theorem SimInv.insertStep {A : Type} {key : A → Option String} {b : List A}
    {aligned : List (Option A)} {st : SimState A} {k : Nat}
    (hb : UniqueKeys key b) (inv : SimInv key b aligned st k) (wanted : A)
    (hw : b.get? k = some wanted) (hkw : jsKeyTruthy (key wanted) = true) :
    SimInv key b aligned
      { st with inserts := st.inserts ++ [⟨key wanted, k⟩] } (k + 1) := by
  have hklt : k < b.length := get_lt_length hw
  have hwmem : wanted ∈ b := List.get?_mem hw
  have hbearW : keyFilter key (jsKeyStr (key wanted)) b = [wanted] :=
    hb.bearer hwmem hkw
  have hIdeal : kmIdeal key b (jsKeyStr (key wanted)) =
      some (some wanted) := by
    simp [kmIdeal, hbearW]
  have hlen : st.simulateIndex + st.inserts.length = k := inv.idx_len hb
  have htake1 : b.take (k + 1) = b.take k ++ [wanted] := take_succ_of_get hw
  have hH2 : keyFilter key (jsKeyStr (key wanted)) (b.take k) = [] :=
    bearer_take_nil hb hw hkw
  have hdropb : b.drop k = wanted :: b.drop (k + 1) :=
    drop_eq_cons_of_get _ _ _ hw
  refine ⟨inv.w1, inv.w2, inv.r0, inv.rk, ?_, inv.k1, inv.kb, ?_, ?_, ?_, ?_,
    by omega⟩
  · -- u1
    show unkeyedOf key (dropNulls (st.simulate.drop st.simulateIndex)) =
      unkeyedOf key (b.drop (k + 1))
    have h0 := inv.u1
    rw [hdropb, unkeyedOf_cons_keyed _ hkw] at h0
    exact h0
  · -- p1
    show applyInserts (st.inserts ++ [⟨key wanted, k⟩])
      (st.simulate.take st.simulateIndex) (kmIdeal key b) =
      (b.take (k + 1)).map some
    rw [applyInserts_snoc,
      show ((⟨key wanted, k⟩ : MoveInsert)).key = key wanted from rfl,
      show ((⟨key wanted, k⟩ : MoveInsert)).toIdx = k from rfl, hIdeal]
    rw [inv.p1]
    have hL : ((b.take k).map some).length = k := by
      rw [List.length_map, List.length_take]
      omega
    rw [show min k ((b.take k).map some).length =
        ((b.take k).map some).length from by rw [hL, Nat.min_self]]
    show List.insertIdx ((b.take k).map some).length (some wanted)
      ((b.take k).map some) = (b.take (k + 1)).map some
    rw [insertIdx_self_length, htake1, List.map_append]
    rfl
  · -- p2
    intro i ins hins
    show ins.toIdx ≤ st.simulateIndex + i
    by_cases hlt2 : i < st.inserts.length
    · rw [List.get?_append hlt2] at hins
      exact inv.p2 i ins hins
    · have hge : st.inserts.length ≤ i := Nat.le_of_not_lt hlt2
      rw [List.get?_append_right hge] at hins
      cases he : i - st.inserts.length with
      | zero =>
          rw [he] at hins
          have h3 : (⟨key wanted, k⟩ : MoveInsert) = ins := by
            simpa using hins
          rw [← h3]
          show k ≤ st.simulateIndex + i
          omega
      | succ n =>
          rw [he] at hins
          simp [List.get?] at hins
  · -- p3
    intro ins hins
    rcases List.mem_append.mp hins with hins | hins
    · obtain ⟨ht, hf⟩ := inv.p3 ins hins
      refine ⟨ht, ?_⟩
      rw [htake1, keyFilter_append]
      intro h0
      exact hf (List.append_eq_nil.mp h0).1
    · have he : ins = ⟨key wanted, k⟩ := by simpa using hins
      subst he
      rw [show ((⟨key wanted, k⟩ : MoveInsert)).key = key wanted from rfl]
      refine ⟨hkw, ?_⟩
      rw [htake1, keyFilter_append]
      intro h0
      have h1 := (List.append_eq_nil.mp h0).2
      rw [keyFilter_cons_hit [] hkw rfl] at h1
      exact List.cons_ne_nil _ _ h1
  · -- p5
    intro ins hins
    rcases List.mem_append.mp hins with hins | hins
    · exact inv.p5 ins hins
    · have he : ins = ⟨key wanted, k⟩ := by simpa using hins
      subst he
      rw [show ((⟨key wanted, k⟩ : MoveInsert)).key = key wanted from rfl]
      rcases inv.kb (jsKeyStr (key wanted))
          (by rw [hbearW]; exact List.cons_ne_nil _ _) with h | ⟨x, hx, hkx, hsx⟩
      · exact Or.inl h
      · have hksx := inv.k1 x hx hkx
        rw [hsx] at hksx
        have h5 : wanted = x := by
          injection hbearW.symm.trans hksx
        subst h5
        have hx2 : some wanted ∈ st.simulate := mem_dropNulls.mp hx
        have hx3 : some wanted ∈ st.simulate.take st.simulateIndex ++
            st.simulate.drop st.simulateIndex := by
          rw [List.take_append_drop]
          exact hx2
        rcases List.mem_append.mp hx3 with h6 | h6
        · exfalso
          have h7 : some wanted ∈ (b.take k).map some := by
            have hsub := sublist_applyInserts st.inserts
              (st.simulate.take st.simulateIndex) (kmIdeal key b)
            rw [inv.p1] at hsub
            exact hsub.subset h6
          have h8 : wanted ∈ b.take k := by
            rcases List.mem_map.mp h7 with ⟨y, hy, hye⟩
            have h9 : y = wanted := Option.some.inj hye
            rw [← h9]
            exact hy
          have h9 : wanted ∈ keyFilter key (jsKeyStr (key wanted))
              (b.take k) :=
            mem_keyFilter.mpr ⟨h8, hkw, rfl⟩
          rw [hH2] at h9
          cases h9
        · refine Or.inr ?_
          intro h0
          have h9 : wanted ∈ keyFilter key (jsKeyStr (key wanted))
              (dropNulls (st.simulate.drop st.simulateIndex)) :=
            mem_keyFilter.mpr ⟨mem_dropNulls.mpr h6, hkw, rfl⟩
          rw [h0] at h9
          cases h9


/-- When the cursor item carries the wanted item\'s key, advancing both
cursors preserves the invariant. -/
theorem SimInv.matchStep {A : Type} {key : A → Option String} {b : List A}
    {aligned : List (Option A)} {st : SimState A} {k : Nat}
    (hb : UniqueKeys key b) (inv : SimInv key b aligned st k) (wanted si : A)
    (hw : b.get? k = some wanted)
    (hc : st.simulate.get? st.simulateIndex = some (some si))
    (heq : key si = key wanted) :
    SimInv key b aligned
      { st with simulateIndex := st.simulateIndex + 1 } (k + 1) := by
  have hklt : k < b.length := get_lt_length hw
  have hlt : st.simulateIndex < st.simulate.length := get_lt_length hc
  have hdropb : b.drop k = wanted :: b.drop (k + 1) :=
    drop_eq_cons_of_get _ _ _ hw
  have hdnsuf : dropNulls (st.simulate.drop st.simulateIndex) =
      si :: dropNulls (st.simulate.drop (st.simulateIndex + 1)) := by
    rw [drop_eq_cons_of_get _ _ _ hc, dropNulls_cons_some]
  have hsiw : si = wanted := by
    cases hks : isKeyed key si with
    | true =>
        have hf1 := inv.k1 si (mem_dropNulls.mpr (List.get?_mem hc)) hks
        have hkw : isKeyed key wanted = true := by
          rw [isKeyed, ← heq]
          exact hks
        have hf2 : wanted ∈ keyFilter key (jsKeyStr (key si)) b := by
          rw [show jsKeyStr (key si) = jsKeyStr (key wanted) from by rw [heq]]
          exact self_mem_keyFilter (List.get?_mem hw) hkw
        rw [hf1] at hf2
        exact (List.mem_singleton.mp hf2).symm
    | false =>
        have hkw : isKeyed key wanted = false := by
          rw [isKeyed, ← heq]
          exact hks
        have h0 := inv.u1
        rw [hdnsuf, hdropb, unkeyedOf_cons_unkeyed _ hks,
          unkeyedOf_cons_unkeyed _ hkw] at h0
        injection h0 with h1 h2
  subst hsiw
  refine ⟨?_, ?_, inv.r0, inv.rk, ?_, inv.k1, inv.kb, ?_, ?_, ?_, ?_,
    by omega⟩
  · -- w1
    show st.simulateIndex + 1 ≤ st.simulate.length
    omega
  · -- w2
    show ∀ e ∈ st.simulate.take (st.simulateIndex + 1), e ≠ none
    rw [take_succ_of_get hc]
    intro e he
    rcases List.mem_append.mp he with he | he
    · exact inv.w2 e he
    · rw [List.mem_singleton.mp he]
      exact Option.some_ne_none _
  · -- u1
    show unkeyedOf key
      (dropNulls (st.simulate.drop (st.simulateIndex + 1))) =
      unkeyedOf key (b.drop (k + 1))
    have h0 := inv.u1
    rw [hdnsuf, hdropb] at h0
    cases hks : isKeyed key si with
    | true =>
        rw [unkeyedOf_cons_keyed _ hks, unkeyedOf_cons_keyed _ hks] at h0
        exact h0
    | false =>
        rw [unkeyedOf_cons_unkeyed _ hks, unkeyedOf_cons_unkeyed _ hks] at h0
        injection h0
  · -- p1
    show applyInserts st.inserts (st.simulate.take (st.simulateIndex + 1))
      (kmIdeal key b) = (b.take (k + 1)).map some
    rw [take_succ_of_get hc,
      applyInserts_append_ext st.inserts (st.simulate.take st.simulateIndex)
        [some si] (kmIdeal key b) inv.p2get (inv.resolvable hb),
      inv.p1, take_succ_of_get hw, List.map_append]
    rfl
  · -- p2
    intro i ins hins
    have h0 := inv.p2 i ins hins
    show ins.toIdx ≤ st.simulateIndex + 1 + i
    omega
  · -- p3
    intro ins hins
    obtain ⟨ht, hf⟩ := inv.p3 ins hins
    refine ⟨ht, ?_⟩
    rw [take_succ_of_get hw, keyFilter_append]
    intro h0
    exact hf (List.append_eq_nil.mp h0).1
  · -- p5
    intro ins hins
    rcases inv.p5 ins hins with h | h
    · exact Or.inl h
    · refine Or.inr ?_
      show keyFilter key (jsKeyStr ins.key)
        (dropNulls (st.simulate.drop (st.simulateIndex + 1))) ≠ []
      rw [hdnsuf] at h
      cases hkw2 : isKeyed key si with
      | false =>
          rw [keyFilter_cons_unkeyed _ hkw2] at h
          exact h
      | true =>
          by_cases hss : jsKeyStr (key si) = jsKeyStr ins.key
          · exfalso
            have hf2 := (inv.p3 ins hins).2
            rw [← hss] at hf2
            exact hf2 (bearer_take_nil hb hw hkw2)
          · rw [keyFilter_cons_other _ hss] at h
            exact h


/-- With an unkeyed wanted item remaining, the cursor cannot be exhausted:
the no-progress branch of the source\'s loop is unreachable. -/
theorem SimInv.noSpinNone {A : Type} {key : A → Option String} {b : List A}
    {aligned : List (Option A)} {st : SimState A} {k : Nat}
    (inv : SimInv key b aligned st k) (wanted : A)
    (hw : b.get? k = some wanted)
    (hkw : jsKeyTruthy (key wanted) = false)
    (hc : st.simulate.get? st.simulateIndex = none) : False := by
  have hge : st.simulate.length ≤ st.simulateIndex := by
    by_contra h
    rcases List.get?_eq_some.mp
      (List.get?_eq_get (Nat.lt_of_not_le h)) with _
    rw [List.get?_eq_get (Nat.lt_of_not_le h)] at hc
    cases hc
  have hdrop : st.simulate.drop st.simulateIndex = [] :=
    List.drop_eq_nil_of_le hge
  have h0 := inv.u1
  rw [hdrop, drop_eq_cons_of_get _ _ _ hw,
    unkeyedOf_cons_unkeyed _ hkw] at h0
  simp [dropNulls, unkeyedOf] at h0

/-- With an unkeyed wanted item remaining, an unkeyed cursor item always
carries the same key: the other no-progress branch is unreachable. -/
theorem SimInv.noSpinUnkeyed {A : Type} {key : A → Option String}
    {b : List A} {aligned : List (Option A)} {st : SimState A} {k : Nat}
    (inv : SimInv key b aligned st k) (wanted si : A)
    (hw : b.get? k = some wanted)
    (hkw : jsKeyTruthy (key wanted) = false)
    (hc : st.simulate.get? st.simulateIndex = some (some si))
    (hks : jsKeyTruthy (key si) = false)
    (hne : key si ≠ key wanted) : False := by
  have h0 := inv.u1
  rw [drop_eq_cons_of_get _ _ _ hc, dropNulls_cons_some,
    unkeyedOf_cons_unkeyed _ hks, drop_eq_cons_of_get _ _ _ hw,
    unkeyedOf_cons_unkeyed _ hkw] at h0
  injection h0 with h1 _
  exact hne (by rw [h1])

/-- `skipNulls` preserves the invariant, fixes the cursor position and the
inserts, never grows the array, and with enough fuel leaves no `null` at the
cursor. -/
theorem SimInv.skip {A : Type} {key : A → Option String} {b : List A}
    {aligned : List (Option A)} {k : Nat} :
    ∀ (fuel : Nat) (st : SimState A), SimInv key b aligned st k →
      SimInv key b aligned (skipNulls st fuel) k ∧
      (skipNulls st fuel).simulateIndex = st.simulateIndex ∧
      (skipNulls st fuel).inserts = st.inserts ∧
      (skipNulls st fuel).simulate.length ≤ st.simulate.length ∧
      (st.simulate.length - st.simulateIndex < fuel →
        ¬ (skipNulls st fuel).simulate.get?
          (skipNulls st fuel).simulateIndex = some none) := by
  intro fuel
  induction fuel with
  | zero =>
      intro st inv
      refine ⟨inv, rfl, rfl, Nat.le_refl _, ?_⟩
      intro h
      omega
  | succ fuel ih =>
      intro st inv
      cases hc : st.simulate.get? st.simulateIndex with
      | none =>
          have hres : skipNulls st (fuel + 1) = st := by
            rw [skipNulls, hc]
          rw [hres]
          refine ⟨inv, rfl, rfl, Nat.le_refl _, ?_⟩
          intro _ h
          rw [hc] at h
          cases h
      | some v =>
          cases v with
          | none =>
              have hlt : st.simulateIndex < st.simulate.length :=
                get_lt_length hc
              have hlen0 : st.simulate.length ≠ 0 := by omega
              have hres : skipNulls st (fuel + 1) =
                  skipNulls (spliceRemove st none) fuel := by
                rw [skipNulls, hc, if_pos hlen0]
              obtain ⟨inv2, hidx, hins, hlen, hpost⟩ :=
                ih (spliceRemove st none) (inv.spliceNull hc)
              have helen : (spliceRemove st none).simulate.length =
                  st.simulate.length - 1 := by
                show (st.simulate.eraseIdx st.simulateIndex).length =
                  st.simulate.length - 1
                exact length_eraseIdx_lt _ _ hlt
              rw [hres]
              refine ⟨inv2, ?_, hins, ?_, ?_⟩
              · rw [hidx]
                rfl
              · omega
              · intro h
                refine hpost ?_
                rw [helen]
                show st.simulate.length - 1 -
                  st.simulateIndex < fuel
                omega
          | some si =>
              have hres : skipNulls st (fuel + 1) = st := by
                rw [skipNulls, hc]
              rw [hres]
              refine ⟨inv, rfl, rfl, Nat.le_refl _, ?_⟩
              intro _ h
              rw [hc] at h
              cases h


/-- The simulation loop terminates within its fuel on key-unique inputs and
delivers a final state satisfying the invariant at `b.length`, for any
contents of the key hash consulted by its pre-advance test. -/
theorem simLoop_correct {A : Type} {key : A → Option String} {b : List A}
    {aligned : List (Option A)} (hb : UniqueKeys key b)
    (bKeys : List (String × Nat)) :
    ∀ (fuel : Nat) (st : SimState A) (k : Nat),
      SimInv key b aligned st k →
      2 * (b.length - k) + (st.simulate.length - st.simulateIndex) < fuel →
      ∃ st2, simLoop key b bKeys st k fuel = some st2 ∧
        SimInv key b aligned st2 b.length := by
  intro fuel
  induction fuel with
  | zero =>
      intro st k inv hm
      omega
  | succ fuel ih =>
      intro st k inv hm
      by_cases hk : k < b.length
      · have hw : b.get? k = some (b.get ⟨k, hk⟩) := List.get?_eq_get hk
        obtain ⟨inv1, hidx1, hins1, hlen1, hpost1⟩ :=
          SimInv.skip (st.simulate.length + 1) st inv
        have hcurs := hpost1 (by omega)
        rw [simLoop, if_pos hk]
        simp only [hw]
        set st1 := skipNulls st (st.simulate.length + 1) with hst1
        have hm1 : 2 * (b.length - k) +
            (st1.simulate.length - st1.simulateIndex) < fuel + 1 := by
          rw [hidx1]
          omega
        cases hc1 : st1.simulate.get? st1.simulateIndex with
        | none =>
            simp only [hc1]
            -- simulateItem = none: the outer condition is true
            split
            · split
              · -- keyed wanted, cursor exhausted: record an insert
                rename_i hkw
                obtain ⟨st2, hrun, hinv2⟩ := ih
                  { st1 with inserts := st1.inserts ++ [⟨key (b.get ⟨k, hk⟩), k⟩] }
                  (k + 1)
                  (inv1.insertStep hb (b.get ⟨k, hk⟩) hw hkw)
                  (by
                    show 2 * (b.length - (k + 1)) +
                      (st1.simulate.length - st1.simulateIndex) < fuel
                    omega)
                exact ⟨st2, hrun, hinv2⟩
              · -- unkeyed wanted, cursor exhausted: unreachable
                rename_i hkw
                exact absurd hc1
                  (fun h => inv1.noSpinNone (b.get ⟨k, hk⟩) hw
                    (by simp_all) h)
            · -- condition false with a none cursor: impossible
              simp_all
        | some v =>
            cases v with
            | none => exact absurd hc1 hcurs
            | some si =>
                have hlt1 : st1.simulateIndex < st1.simulate.length :=
                  get_lt_length hc1
                simp only [hc1]
                split
                · -- keys differ at the cursor
                  rename_i hne
                  split
                  · -- wanted is keyed
                    rename_i hkw
                    split
                    · -- cursor item keyed
                      rename_i hksi
                      split
                      · -- stale position: splice, then re-examine
                        have inv2 := inv1.spliceKeyed si hc1 hksi
                        have hlen2 : (spliceRemove st1 (key si)).simulate.length
                            = st1.simulate.length - 1 := by
                          show (st1.simulate.eraseIdx
                            st1.simulateIndex).length =
                            st1.simulate.length - 1
                          exact length_eraseIdx_lt _ _ hlt1
                        cases hc2 : (spliceRemove st1 (key si)).simulate.get?
                            (spliceRemove st1 (key si)).simulateIndex with
                        | none =>
                            simp only [hc2]
                            obtain ⟨st2, hrun, hinv2⟩ := ih
                              { spliceRemove st1 (key si) with inserts :=
                                (spliceRemove st1 (key si)).inserts ++
                                  [⟨key (b.get ⟨k, hk⟩), k⟩] }
                              (k + 1)
                              (inv2.insertStep hb (b.get ⟨k, hk⟩) hw hkw)
                              (by
                                show 2 * (b.length - (k + 1)) +
                                  ((spliceRemove st1
                                    (key si)).simulate.length -
                                   (spliceRemove st1
                                    (key si)).simulateIndex) < fuel
                                rw [hlen2]
                                show 2 * (b.length - (k + 1)) +
                                  (st1.simulate.length - 1 -
                                    st1.simulateIndex) < fuel
                                omega)
                            exact ⟨st2, hrun, hinv2⟩
                        | some v2 =>
                            cases v2 with
                            | none =>
                                simp only [hc2]
                                obtain ⟨st2, hrun, hinv2⟩ := ih
                                  { spliceRemove st1 (key si) with inserts :=
                                    (spliceRemove st1 (key si)).inserts ++
                                      [⟨key (b.get ⟨k, hk⟩), k⟩] }
                                  (k + 1)
                                  (inv2.insertStep hb (b.get ⟨k, hk⟩) hw hkw)
                                  (by
                                    show 2 * (b.length - (k + 1)) +
                                      ((spliceRemove st1
                                        (key si)).simulate.length -
                                       (spliceRemove st1
                                        (key si)).simulateIndex) < fuel
                                    rw [hlen2]
                                    show 2 * (b.length - (k + 1)) +
                                      (st1.simulate.length - 1 -
                                        st1.simulateIndex) < fuel
                                    omega)
                                exact ⟨st2, hrun, hinv2⟩
                            | some si2 =>
                                simp only [hc2]
                                split
                                · -- still no match: record an insert
                                  obtain ⟨st2, hrun, hinv2⟩ := ih
                                    { spliceRemove st1 (key si) with inserts :=
                                      (spliceRemove st1 (key si)).inserts ++
                                        [⟨key (b.get ⟨k, hk⟩), k⟩] }
                                    (k + 1)
                                    (inv2.insertStep hb (b.get ⟨k, hk⟩) hw hkw)
                                    (by
                                      show 2 * (b.length - (k + 1)) +
                                        ((spliceRemove st1
                                          (key si)).simulate.length -
                                         (spliceRemove st1
                                          (key si)).simulateIndex) < fuel
                                      rw [hlen2]
                                      show 2 * (b.length - (k + 1)) +
                                        (st1.simulate.length - 1 -
                                          st1.simulateIndex) < fuel
                                      omega)
                                  exact ⟨st2, hrun, hinv2⟩
                                · -- the removal exposed the wanted item
                                  rename_i hne2
                                  have heq2 : key si2 = key (b.get ⟨k, hk⟩) :=
                                    by simp_all
                                  obtain ⟨st2, hrun, hinv2⟩ := ih
                                    { spliceRemove st1 (key si) with
                                      simulateIndex :=
                                        (spliceRemove st1
                                          (key si)).simulateIndex + 1 }
                                    (k + 1)
                                    (inv2.matchStep hb (b.get ⟨k, hk⟩) si2 hw
                                      hc2 heq2)
                                    (by
                                      show 2 * (b.length - (k + 1)) +
                                        ((spliceRemove st1
                                          (key si)).simulate.length -
                                         ((spliceRemove st1
                                          (key si)).simulateIndex + 1)) < fuel
                                      rw [hlen2]
                                      show 2 * (b.length - (k + 1)) +
                                        (st1.simulate.length - 1 -
                                          (st1.simulateIndex + 1)) < fuel
                                      omega)
                                  exact ⟨st2, hrun, hinv2⟩
                      · -- the hash already places the cursor key next
                        obtain ⟨st2, hrun, hinv2⟩ := ih
                          { st1 with inserts := st1.inserts ++
                            [⟨key (b.get ⟨k, hk⟩), k⟩] }
                          (k + 1)
                          (inv1.insertStep hb (b.get ⟨k, hk⟩) hw hkw)
                          (by
                            show 2 * (b.length - (k + 1)) +
                              (st1.simulate.length - st1.simulateIndex) < fuel
                            omega)
                        exact ⟨st2, hrun, hinv2⟩
                    · -- cursor item unkeyed, wanted keyed: record an insert
                      rename_i hksi
                      obtain ⟨st2, hrun, hinv2⟩ := ih
                        { st1 with inserts := st1.inserts ++
                          [⟨key (b.get ⟨k, hk⟩), k⟩] }
                        (k + 1)
                        (inv1.insertStep hb (b.get ⟨k, hk⟩) hw hkw)
                        (by
                          show 2 * (b.length - (k + 1)) +
                            (st1.simulate.length - st1.simulateIndex) < fuel
                          omega)
                      exact ⟨st2, hrun, hinv2⟩
                  · -- wanted unkeyed
                    rename_i hkw
                    split
                    · -- keyed cursor item: splice it away, same k
                      rename_i hksi
                      obtain ⟨st2, hrun, hinv2⟩ := ih
                        (spliceRemove st1 (key si)) k
                        (inv1.spliceKeyed si hc1 hksi)
                        (by
                          show 2 * (b.length - k) +
                            ((spliceRemove st1 (key si)).simulate.length -
                              (spliceRemove st1 (key si)).simulateIndex) < fuel
                          have hlen2 : (spliceRemove st1
                              (key si)).simulate.length =
                              st1.simulate.length - 1 := by
                            show (st1.simulate.eraseIdx
                              st1.simulateIndex).length =
                              st1.simulate.length - 1
                            exact length_eraseIdx_lt _ _ hlt1
                          rw [hlen2]
                          show 2 * (b.length - k) +
                            (st1.simulate.length - 1 - st1.simulateIndex) <
                            fuel
                          omega)
                      exact ⟨st2, hrun, hinv2⟩
                    · -- unkeyed cursor item with a different key: unreachable
                      rename_i hksi
                      exact absurd hc1
                        (fun h => inv1.noSpinUnkeyed (b.get ⟨k, hk⟩) si hw
                          (by simp_all) h (by simp_all) (by simp_all))
                · -- keys match at the cursor: advance both
                  rename_i hne
                  have heq : key si = key (b.get ⟨k, hk⟩) := by simp_all
                  obtain ⟨st2, hrun, hinv2⟩ := ih
                    { st1 with simulateIndex := st1.simulateIndex + 1 }
                    (k + 1)
                    (inv1.matchStep hb (b.get ⟨k, hk⟩) si hw hc1 heq)
                    (by
                      show 2 * (b.length - (k + 1)) +
                        (st1.simulate.length - (st1.simulateIndex + 1)) < fuel
                      omega)
                  exact ⟨st2, hrun, hinv2⟩
      · have hres : simLoop key b bKeys st k (fuel + 1) = some st := by
          rw [simLoop, if_neg hk]
        refine ⟨st, hres, ?_⟩
        have hkb : k = b.length := Nat.le_antisymm inv.kd (Nat.le_of_not_lt hk)
        rw [← hkb]
        exact inv


/-- The trailing cleanup of `reorder` preserves the invariant at `b.length`,
keeps the inserts, and with enough fuel consumes the array up to the
cursor. -/
theorem SimInv.trailing {A : Type} {key : A → Option String} {b : List A}
    {aligned : List (Option A)} :
    ∀ (fuel : Nat) (st : SimState A), SimInv key b aligned st b.length →
      st.simulate.length - st.simulateIndex < fuel →
      SimInv key b aligned (trailingRemoves key st fuel) b.length ∧
      (trailingRemoves key st fuel).inserts = st.inserts ∧
      (trailingRemoves key st fuel).simulate.length ≤
        (trailingRemoves key st fuel).simulateIndex := by
  intro fuel
  induction fuel with
  | zero =>
      intro st inv h
      omega
  | succ fuel ih =>
      intro st inv hfu
      by_cases hlt : st.simulateIndex < st.simulate.length
      · have hv : st.simulate.get? st.simulateIndex =
            some (st.simulate.get ⟨st.simulateIndex, hlt⟩) :=
          List.get?_eq_get hlt
        cases hval : st.simulate.get ⟨st.simulateIndex, hlt⟩ with
        | none =>
            rw [hval] at hv
            have hres : trailingRemoves key st (fuel + 1) =
                trailingRemoves key (spliceRemove st none) fuel := by
              rw [trailingRemoves, if_pos hlt, hv]
            have hlen2 : (spliceRemove st none).simulate.length =
                st.simulate.length - 1 := by
              show (st.simulate.eraseIdx st.simulateIndex).length =
                st.simulate.length - 1
              exact length_eraseIdx_lt _ _ hlt
            rw [hres]
            exact ih (spliceRemove st none) (inv.spliceNull hv)
              (by
                rw [hlen2]
                show st.simulate.length - 1 - st.simulateIndex < fuel
                omega)
        | some si =>
            rw [hval] at hv
            cases hksi : isKeyed key si with
            | true =>
                have hres : trailingRemoves key st (fuel + 1) =
                    trailingRemoves key (spliceRemove st (key si)) fuel := by
                  rw [trailingRemoves, if_pos hlt, hv]
                have hlen2 : (spliceRemove st (key si)).simulate.length =
                    st.simulate.length - 1 := by
                  show (st.simulate.eraseIdx st.simulateIndex).length =
                    st.simulate.length - 1
                  exact length_eraseIdx_lt _ _ hlt
                rw [hres]
                exact ih (spliceRemove st (key si))
                  (inv.spliceKeyed si hv hksi)
                  (by
                    rw [hlen2]
                    show st.simulate.length - 1 - st.simulateIndex < fuel
                    omega)
            | false =>
                exfalso
                have h0 := inv.u1
                rw [List.drop_length] at h0
                have hmem : si ∈ unkeyedOf key
                    (dropNulls (st.simulate.drop st.simulateIndex)) := by
                  rw [drop_eq_cons_of_get _ _ _ hv, dropNulls_cons_some,
                    unkeyedOf_cons_unkeyed _ hksi]
                  exact List.mem_cons_self _ _
                rw [h0] at hmem
                simp [unkeyedOf] at hmem
      · have hres : trailingRemoves key st (fuel + 1) = st := by
          rw [trailingRemoves, if_neg hlt]
        rw [hres]
        exact ⟨inv, rfl, Nat.le_of_not_lt hlt⟩


/-- `applyMoves`, unfolded. -/
theorem applyMoves_eq {A : Type} (children : List (Option A)) (m : Moves) :
    applyMoves children m =
      applyInserts m.inserts (applyRemoves m.removes children []).1
        (kmFind (applyRemoves m.removes children []).2) := by
  rcases h : applyRemoves m.removes children [] with ⟨arr, km⟩
  rw [applyMoves, h]

/-- Claim C5 (amended): provided the truthy keys of the new child list are
pairwise distinct (in particular whenever keys are unique within each list,
as in the spec\'s `[a,b,c] → [c,a,b]` example), the moves record produced by
`reorder` is correct — applying its removes in order and then its inserts
against the aligned children yields exactly the new children once the `null`
deletion placeholders are dropped, and when it reports `moves = null` the
aligned children already carry exactly the new children; moreover whenever
either list contains no keyed item at all, `reorder` returns `moves = null`
with the aligned children equal to the new children. Without the
key-uniqueness hypothesis the claim is refuted by the companion
counterexample. -/
theorem c5_reorder_correct_amended {A : Type} (key : A → Option String)
    (a b : List A) (hb : UniqueKeys key b) :
    ∃ r : ReorderResult A, reorder key a b = some r ∧
      (match r.moves with
       | some m => dropNulls (applyMoves r.children m) = b
       | none => dropNulls r.children = b) ∧
      ((keysOf key a = [] ∨ keysOf key b = []) →
        r.children = b.map some ∧ r.moves = none) := by
  set bIdx := keyIndex key b with hbIdx
  set aIdx := keyIndex key a with haIdx
  set scan := reorderScanA key b bIdx.keys bIdx.free a with hscan
  set L := (if bIdx.free.length ≤ scan.freeIndex then b.length
    else bIdx.free.getD scan.freeIndex 0) with hLdef
  set aligned := reorderAppendB key aIdx.keys L b scan.newChildren
    with haligned
  have hunf : reorder key a b =
      (if bIdx.free.length = b.length ∨ aIdx.free.length = a.length then
        some ⟨b.map some, none⟩
      else
        match simLoop key b bIdx.keys ⟨aligned, 0, [], []⟩ 0
          (2 * b.length + aligned.length + 1) with
        | none => none
        | some st =>
            if (trailingRemoves key st (st.simulate.length + 1)).removes.length
                = scan.deletedItems ∧
                (trailingRemoves key st (st.simulate.length + 1)).inserts = []
            then some ⟨aligned, none⟩
            else some ⟨aligned, some
              ⟨(trailingRemoves key st (st.simulate.length + 1)).removes,
               (trailingRemoves key st (st.simulate.length + 1)).inserts⟩⟩) :=
    rfl
  by_cases hex : bIdx.free.length = b.length ∨ aIdx.free.length = a.length
  · refine ⟨⟨b.map some, none⟩, ?_, ?_, fun _ => ⟨rfl, rfl⟩⟩
    · rw [hunf, if_pos hex]
    · show dropNulls (b.map some) = b
      exact dropNulls_map_some b
  · -- the alignment facts
    obtain ⟨hPA1, hPA4, hPA2, hPA3⟩ := aligned_props key a b hb scan L aligned
      (by rw [hscan, hbIdx]) (by rw [hLdef, hscan, hbIdx])
      (by rw [haligned, haIdx, hLdef, hscan, hbIdx])
    -- the invariant at the start of the simulation
    have inv0 : SimInv key b aligned
        (⟨aligned, 0, [], []⟩ : SimState A) 0 := by
      refine ⟨Nat.zero_le _, ?_, rfl, ?_, ?_, ?_, ?_, rfl, ?_, ?_, ?_,
        Nat.zero_le _⟩
      · intro e he
        simp at he
      · intro s x h
        simp [kmFind, applyRemoves] at h
      · show unkeyedOf key (dropNulls (aligned.drop 0)) =
          unkeyedOf key (b.drop 0)
        rw [List.drop_zero, List.drop_zero]
        exact hPA1
      · exact hPA2
      · intro s hs
        exact Or.inr (hPA3 s hs)
      · intro i ins h
        simp [List.get?] at h
      · intro ins h
        simp at h
      · intro ins h
        simp at h
    obtain ⟨st2, hrun, hinv2⟩ := simLoop_correct hb bIdx.keys
      (2 * b.length + aligned.length + 1) ⟨aligned, 0, [], []⟩ 0 inv0
      (by
        show 2 * (b.length - 0) + (aligned.length - 0) <
          2 * b.length + aligned.length + 1
        omega)
    obtain ⟨inv3, hins3, hfin⟩ := SimInv.trailing
      (st2.simulate.length + 1) st2 hinv2 (by omega)
    have hres0 : reorder key a b =
        (if (trailingRemoves key st2
              (st2.simulate.length + 1)).removes.length =
            scan.deletedItems ∧
            (trailingRemoves key st2 (st2.simulate.length + 1)).inserts = []
         then some ⟨aligned, none⟩
         else some ⟨aligned, some
           ⟨(trailingRemoves key st2 (st2.simulate.length + 1)).removes,
            (trailingRemoves key st2 (st2.simulate.length + 1)).inserts⟩⟩) :=
      by rw [hunf, if_neg hex, hrun]
    set st3 := trailingRemoves key st2 (st2.simulate.length + 1) with hst3
    -- facts about the final state
    have hlenidx : st3.simulateIndex = st3.simulate.length :=
      Nat.le_antisymm inv3.w1 hfin
    have hp1fin : applyInserts st3.inserts st3.simulate (kmIdeal key b) =
        b.map some := by
      have h0 := inv3.p1
      rw [hlenidx, List.take_length, List.take_length] at h0
      exact h0
    have hcong : ∀ ins ∈ st3.inserts,
        kmFind (applyRemoves st3.removes aligned []).2 (jsKeyStr ins.key) =
        kmIdeal key b (jsKeyStr ins.key) := by
      intro ins hins
      rcases inv3.p5 ins hins with h | h
      · obtain ⟨x, hx⟩ := Option.isSome_iff_exists.mp h
        obtain ⟨xa, hxa, hfil⟩ := inv3.rk _ x hx
        rw [hx, hxa]
        simp [kmIdeal, hfil]
      · exfalso
        apply h
        rw [show st3.simulate.drop st3.simulateIndex = [] from
          List.drop_eq_nil_of_le hfin]
        rfl
    -- the keyless clause is vacuous here
    have hkeyless : (keysOf key a = [] ∨ keysOf key b = []) → False := by
      intro hkl
      apply hex
      rcases hkl with hkl | hkl
      · refine Or.inr ?_
        rw [haIdx, keyIndex_free]
        exact (unkeyedIdxs_length_eq_iff key a 0).mpr hkl
      · refine Or.inl ?_
        rw [hbIdx, keyIndex_free]
        exact (unkeyedIdxs_length_eq_iff key b 0).mpr hkl
    by_cases hmv : st3.removes.length = scan.deletedItems ∧ st3.inserts = []
    · rw [if_pos hmv] at hres0
      refine ⟨⟨aligned, none⟩, hres0, ?_, fun hkl => absurd hkl
        (fun h => hkeyless h)⟩
      show dropNulls aligned = b
      have hsim : st3.simulate = b.map some := by
        have h0 := hp1fin
        rw [hmv.2] at h0
        exact h0
      have hsub2 : b.Sublist (dropNulls aligned) := by
        have h0 := applyRemoves_sublist st3.removes aligned
          ([] : List (String × Option A))
        rw [inv3.r0, hsim] at h0
        have h1 := dropNulls_sublist h0
        rw [dropNulls_map_some] at h1
        exact h1
      have hlen : (dropNulls aligned).length ≤ b.length := by
        have h2 := applyRemoves_length_ge st3.removes aligned
          ([] : List (String × Option A))
        rw [inv3.r0, hsim, List.length_map] at h2
        have h3 := dropNulls_length aligned
        have h4 : countNone aligned = st3.removes.length := by
          rw [hPA4]
          exact hmv.1.symm
        omega
      exact (List.Sublist.eq_of_length_le hsub2 hlen).symm
    · rw [if_neg hmv] at hres0
      refine ⟨⟨aligned, some ⟨st3.removes, st3.inserts⟩⟩, hres0, ?_,
        fun hkl => absurd hkl (fun h => hkeyless h)⟩
      show dropNulls (applyMoves aligned ⟨st3.removes, st3.inserts⟩) = b
      rw [applyMoves_eq,
        show ((⟨st3.removes, st3.inserts⟩ : Moves)).inserts =
          st3.inserts from rfl,
        show ((⟨st3.removes, st3.inserts⟩ : Moves)).removes =
          st3.removes from rfl,
        applyInserts_congr st3.inserts
          (applyRemoves st3.removes aligned []).1
          (kmFind (applyRemoves st3.removes aligned []).2)
          (kmIdeal key b) hcong,
        inv3.r0, hp1fin, dropNulls_map_some]


/-- Old child list `[{key:"a"}, {key:"b"}, {key:"c"}]` of the spec\'s keyed
reorder example. -/
def kListA3 : List KItem := [⟨some "a", 0⟩, ⟨some "b", 1⟩, ⟨some "c", 2⟩]

/-- New child list `[{key:"c"}, {key:"a"}, {key:"b"}]` of the spec\'s keyed
reorder example. -/
def kListB3 : List KItem := [⟨some "c", 3⟩, ⟨some "a", 4⟩, ⟨some "b", 5⟩]

/-- Witness for the amended C5 at the spec\'s `[a,b,c] → [c,a,b]` example:
the key-uniqueness hypothesis holds there and the amended claim applies. -/
theorem c5_reorder_correct_amended_witness :
    UniqueKeys KItem.key kListB3 ∧
    (∃ r : ReorderResult KItem, reorder KItem.key kListA3 kListB3 = some r ∧
      (match r.moves with
       | some m => dropNulls (applyMoves r.children m) = kListB3
       | none => dropNulls r.children = kListB3) ∧
      ((keysOf KItem.key kListA3 = [] ∨ keysOf KItem.key kListB3 = []) →
        r.children = kListB3.map some ∧ r.moves = none)) :=
  ⟨((by decide : (keysOf KItem.key kListB3).Nodup) :
      UniqueKeys KItem.key kListB3),
   c5_reorder_correct_amended KItem.key kListA3 kListB3
     ((by decide : (keysOf KItem.key kListB3).Nodup) :
       UniqueKeys KItem.key kListB3)⟩

end VDom
